import Mathlib

/-!
Verification of the archive-patching engine (`src/patcher.py`, `src/mods/patcher.py`),
the recipe patch DSL (`JarPatcher.modify_recipe`), the texture recolor transform
(`src/mods/projecte/ttp.py`) and the structured file store, as a shallow embedding
in Lean 4.

Conventions of the embedding:
* Python `str` values become Lean `String`s; Python lists become Lean `List`s.
* Python `dict`s become ordered association lists (`List (String × α)`) with
  Python-dict semantics: assignment keeps the position of an existing key and
  appends a fresh key; `del` removes the entry; iteration follows list order.
* Machine floats are embedded as exact rationals `ℚ`; the only transcendental
  operation of the source (`t ** t_gamma` in `ttp.py`) is abstracted as an
  explicit function parameter, since no theorem below depends on its values.
* Fallible code returns `Except`/`Option`, or a pair (state, error option)
  when the on-disk state on failure matters.
-/

/-! ## Python string helpers -/

/-- The whitespace characters removed by Python `str.strip()` (ASCII subset). -/
def pyIsSpace (c : Char) : Bool :=
  c = ' ' || c = '\t' || c = '\n' || c = '\r' || c = '\x0b' || c = '\x0c'

/-- Python `str.strip()`: drop leading and trailing whitespace. -/
def pyStrip (s : String) : String :=
  ⟨((s.data.dropWhile pyIsSpace).reverse.dropWhile pyIsSpace).reverse⟩

/-- Python `s.startswith("#")`. -/
def startsWithHash (s : String) : Bool :=
  s.data.head? = some '#'

/-- Python `s[1:]`. -/
def strTail (s : String) : String :=
  ⟨s.data.drop 1⟩

/-- One-character string, as produced by iterating over a Python string
(`set(''.join(pattern))` yields one-character strings). -/
def charStr (c : Char) : String := ⟨[c]⟩

/-! ## Ordered mappings with Python `dict` semantics -/

/-- Python `d[k] = v`: replace in place when the key exists, else append. -/
def dictSet (d : List (String × α)) (k : String) (v : α) : List (String × α) :=
  if d.any (fun kv => kv.1 = k) then
    d.map (fun kv => if kv.1 = k then (k, v) else kv)
  else d ++ [(k, v)]

/-- Python `d.update(u)`: `d[k] = v` for each pair of `u` in order. -/
def dictUpdate (d u : List (String × α)) : List (String × α) :=
  u.foldl (fun acc kv => dictSet acc kv.1 kv.2) d

/-- Python `del d[k]` (removes the unique entry with that key). -/
def dictErase (d : List (String × α)) (k : String) : List (String × α) :=
  d.filter (fun kv => kv.1 ≠ k)

/-- Python `k in d`. -/
def dictMem (d : List (String × α)) (k : String) : Bool :=
  d.any (fun kv => kv.1 = k)

/-! ## Recipe patch DSL (`JarPatcher.modify_recipe`, src/mods/patcher.py:275-358) -/

/-- A single binding inside a recipe `key` entry: `{"item": s}` or `{"tag": s}`. -/
inductive Binding where
  | item (s : String)
  | tag (s : String)
deriving DecidableEq, Repr

/-- A Python value passed as an update value: either a `str`, or any non-string
value (the embedding only needs to distinguish the two; the payload names the
concrete non-string for counterexamples). -/
inductive PyVal where
  | str (s : String)
  | other (descr : String)
deriving DecidableEq, Repr

/-- Errors raised by `modify_recipe` (`ValueError` in the source; the spec names
them `ConflictError`, `InvalidBindingError`, `SchemaConsistencyError`). -/
inductive RecipeErr where
  | conflictError
  | bindingError
  | schemaError
deriving DecidableEq, Repr

/-- A recipe document: the `"key"` mapping and the `"pattern"` row list. -/
structure RecipeDoc where
  key : List (String × List Binding)
  pattern : List String
deriving DecidableEq, Repr

/-- `_normalize_value` (src/mods/patcher.py:321-328): strip, then `#`-prefixed
strings become a tag binding, other strings an item binding; non-strings raise. -/
def normalize_value : PyVal → Except RecipeErr (List Binding)
  | .str s =>
    let v := pyStrip s
    if startsWithHash v then .ok [.tag (strTail v)]
    else .ok [.item v]
  | .other _ => .error .bindingError

/-- Normalize all update values, in dictionary-comprehension order. -/
def normalizeUpdates : List (String × PyVal) → Except RecipeErr (List (String × List Binding))
  | [] => .ok []
  | (k, v) :: rest => do
    let b ← normalize_value v
    let r ← normalizeUpdates rest
    .ok ((k, b) :: r)

/-- The conflict test of src/mods/patcher.py:330:
`keys_to_remove is not None and set(keys_to_remove) & set(keys_to_update.keys())`. -/
def conflictCheck (updates : List (String × PyVal)) (removals : Option (List String)) : Bool :=
  match removals with
  | none => false
  | some rs => rs.any (fun k => updates.any (fun kv => kv.1 = k))

/-- The key deletion loop (src/mods/patcher.py:337-342): delete each removal key
when present, tolerate (print) an absent key. -/
def applyRemovals (key : List (String × List Binding)) : Option (List String) → List (String × List Binding)
  | none => key
  | some rs => rs.foldl (fun acc k => if dictMem acc k then dictErase acc k else acc) key

/-- Key set of the `"key"` mapping: `set(recipe_data['key'].keys())`. -/
def keyNames (key : List (String × List Binding)) : Finset String :=
  (key.map Prod.fst).toFinset

/-- Symbol set of a pattern: `set(''.join(rows).replace(' ', ''))` — the distinct
non-space characters of the concatenated rows, as one-character strings. -/
def patternSymbols (rows : List String) : Finset String :=
  (((rows.map String.data).flatten.filter (fun c => c ≠ ' ')).map charStr).toFinset

/-- The mutated candidate document built by `modify_recipe` before validation:
removals applied, normalized updates merged, pattern replaced when provided. -/
def mutatedDoc (disk : RecipeDoc) (norm : List (String × List Binding))
    (removals : Option (List String)) (pattern : Option (List String)) : RecipeDoc :=
  { key := dictUpdate (applyRemovals disk.key removals) norm
    pattern := match pattern with | some p => p | none => disk.pattern }

/-- `JarPatcher.modify_recipe` (src/mods/patcher.py:275-358), as a transformer of
the on-disk document: returns the document written back plus `none`, or the
unchanged on-disk document plus the raised error (no write happens on failure).
The validation row list mirrors the source's `pattern or recipe_data['pattern']`
(Python truthiness: `None` and `[]` both fall through to the document field). -/
def modify_recipe (disk : RecipeDoc) (updates : List (String × PyVal))
    (removals : Option (List String)) (pattern : Option (List String)) :
    RecipeDoc × Option RecipeErr :=
  if conflictCheck updates removals then (disk, some .conflictError)
  else
    match normalizeUpdates updates with
    | .error e => (disk, some e)
    | .ok norm =>
      let d := mutatedDoc disk norm removals pattern
      let checkRows := match pattern with
        | some p => if p.isEmpty then d.pattern else p
        | none => d.pattern
      if patternSymbols checkRows ≠ keyNames d.key then (disk, some .schemaError)
      else (d, none)

/-- The validation row list of `modify_recipe` always coincides with the pattern
of the mutated document (`pattern or recipe_data['pattern']` after the field was
already overwritten). -/
theorem checkRows_eq_pattern (disk : RecipeDoc) (norm : List (String × List Binding))
    (removals : Option (List String)) (pattern : Option (List String)) :
    (match pattern with
      | some p => if p.isEmpty then (mutatedDoc disk norm removals pattern).pattern else p
      | none => (mutatedDoc disk norm removals pattern).pattern) =
      (mutatedDoc disk norm removals pattern).pattern := by
  cases pattern with
  | none => rfl
  | some p =>
    by_cases hp : p.isEmpty
    · simp [hp]
    · simp [hp, mutatedDoc]

/-- C1. Recipe DSL invariant: for every starting document and every combination
of updates, removals (disjoint from the updates) and optional replacement
pattern — the empty replacement pattern included — `modify_recipe` either
returns a document whose pattern symbol set equals its key set, or raises
(`some` error) and leaves the on-disk document unchanged; with well-typed
(string) update values the schema error is raised exactly when the mutated
candidate violates the symbol-set/key-set equality. -/
theorem modify_recipe_schema_invariant (disk : RecipeDoc) (updates : List (String × PyVal))
    (removals : Option (List String)) (pattern : Option (List String))
    (hdisj : conflictCheck updates removals = false) :
    (∀ d, modify_recipe disk updates removals pattern = (d, none) →
      patternSymbols d.pattern = keyNames d.key) ∧
    (∀ d e, modify_recipe disk updates removals pattern = (d, some e) → d = disk) ∧
    (∀ norm, normalizeUpdates updates = .ok norm →
      ((modify_recipe disk updates removals pattern).2 = some .schemaError ↔
        patternSymbols (mutatedDoc disk norm removals pattern).pattern ≠
          keyNames (mutatedDoc disk norm removals pattern).key)) := by
  cases hn : normalizeUpdates updates with
  | error e =>
    simp only [modify_recipe, hdisj, Bool.false_eq_true, if_false, hn]
    refine ⟨?_, ?_, ?_⟩
    · intro d h; cases h
    · intro d e' h; cases h; rfl
    · intro norm h; exact Except.noConfusion h
  | ok norm =>
    simp only [modify_recipe, hdisj, Bool.false_eq_true, if_false, hn,
      checkRows_eq_pattern disk norm removals pattern]
    by_cases hv : patternSymbols (mutatedDoc disk norm removals pattern).pattern ≠
        keyNames (mutatedDoc disk norm removals pattern).key
    · rw [if_pos hv]
      refine ⟨?_, ?_, ?_⟩
      · intro d h; cases h
      · intro d e' h; cases h; rfl
      · intro norm' h
        injection h with h2
        subst h2
        simpa using hv
    · rw [if_neg hv]
      refine ⟨?_, ?_, ?_⟩
      · intro d h
        cases h
        exact not_not.mp hv
      · intro d e' h; cases h
      · intro norm' h
        injection h with h2
        subst h2
        simp [hv]

/-- Witness for C1 at concrete inputs: the end-to-end scenario of the spec
(update `"W"` to `"minecraft:iron_block"` in a 3×3 planks recipe) satisfies the
invariant after the patch, and an empty replacement pattern against a non-empty
key set raises the schema error while leaving the document unchanged. -/
theorem modify_recipe_schema_invariant_witness :
    patternSymbols (modify_recipe
        ⟨[("W", [Binding.item "minecraft:oak_planks"])], ["WWW", "W W", "WWW"]⟩
        [("W", PyVal.str "minecraft:iron_block")] none none).1.pattern =
      keyNames (modify_recipe
        ⟨[("W", [Binding.item "minecraft:oak_planks"])], ["WWW", "W W", "WWW"]⟩
        [("W", PyVal.str "minecraft:iron_block")] none none).1.key ∧
    (modify_recipe
        ⟨[("W", [Binding.item "minecraft:oak_planks"])], ["WWW", "W W", "WWW"]⟩
        [] none (some [])).2 = some RecipeErr.schemaError ∧
    (modify_recipe
        ⟨[("W", [Binding.item "minecraft:oak_planks"])], ["WWW", "W W", "WWW"]⟩
        [] none (some [])).1 =
      ⟨[("W", [Binding.item "minecraft:oak_planks"])], ["WWW", "W W", "WWW"]⟩ :=
  ⟨(modify_recipe_schema_invariant
      ⟨[("W", [Binding.item "minecraft:oak_planks"])], ["WWW", "W W", "WWW"]⟩
      [("W", PyVal.str "minecraft:iron_block")] none none (by decide)).1 _ (by decide),
   by decide,
   (modify_recipe_schema_invariant
      ⟨[("W", [Binding.item "minecraft:oak_planks"])], ["WWW", "W W", "WWW"]⟩
      [] none (some []) (by decide)).2.1
      (modify_recipe
        ⟨[("W", [Binding.item "minecraft:oak_planks"])], ["WWW", "W W", "WWW"]⟩
        [] none (some [])).1
      RecipeErr.schemaError (by decide)⟩

/-- C7. Binding normalization: strings are stripped, `#`-strings become a
single-element tag binding on the rest, other strings a single-element item
binding, non-strings raise `InvalidBindingError`; in particular
`"#minecraft:planks"` and `"minecraft:crossbow"` normalize as the spec states,
and surrounding whitespace is removed before the `#` test. -/
theorem normalize_value_spec :
    (∀ s : String, normalize_value (.str s) =
      .ok (if startsWithHash (pyStrip s) then [Binding.tag (strTail (pyStrip s))]
           else [Binding.item (pyStrip s)])) ∧
    (∀ d : String, normalize_value (.other d) = .error .bindingError) ∧
    normalize_value (.str "#minecraft:planks") = .ok [Binding.tag "minecraft:planks"] ∧
    normalize_value (.str "minecraft:crossbow") = .ok [Binding.item "minecraft:crossbow"] ∧
    normalize_value (.str " #minecraft:planks \t") = .ok [Binding.tag "minecraft:planks"] := by
  refine ⟨?_, ?_, ?_, ?_, ?_⟩
  · intro s
    by_cases h : startsWithHash (pyStrip s) <;> simp [normalize_value, h]
  · intro d; rfl
  · rfl
  · rfl
  · rfl

/-! ## Texture recolor engine (`src/mods/projecte/ttp.py`) -/

/-- Python 3 `round()` (banker's rounding, half to even), on exact rationals. -/
def pyRound (q : ℚ) : ℤ :=
  let f := ⌊q⌋
  let r := q - f
  if r < 1/2 then f
  else if 1/2 < r then f + 1
  else if f % 2 = 0 then f else f + 1

/-- `TransmutationTabletPainter.lerp`: `int(round(a + (b - a) * t))`. -/
def lerp (a b : ℤ) (t : ℚ) : ℤ :=
  pyRound (a + (b - a) * t)

/-- An RGB color stop. -/
structure RGB where
  r : ℤ
  g : ℤ
  b : ℤ
deriving DecidableEq, Repr

/-- The five gradient stops of a palette (`stops[0] .. stops[4]`). -/
structure Stops where
  s0 : RGB
  s1 : RGB
  s2 : RGB
  s3 : RGB
  s4 : RGB
deriving DecidableEq, Repr

/-- Python list indexing `stops[i]`; only indices `0..4` occur in the source
(the clamped segment index is at most 3, its successor at most 4). -/
def stopsGet (st : Stops) : ℕ → RGB
  | 0 => st.s0
  | 1 => st.s1
  | 2 => st.s2
  | 3 => st.s3
  | _ => st.s4

/-- `TransmutationTabletPainter.gradient_color` (ttp.py:156-192): clamp `t` to
`[0,1]`, segment index `min(int(t*4), 3)`, local position `(t - seg/4)*4`,
channel-wise `lerp` between the segment's two stops. -/
def gradient_color (st : Stops) (t : ℚ) : RGB :=
  let tc := max 0 (min 1 t)
  let seg := min (Int.toNat ⌊tc * 4⌋) 3
  let t0 : ℚ := (seg : ℚ) / 4
  let local_t := (tc - t0) * 4
  let c1 := stopsGet st seg
  let c2 := stopsGet st (seg + 1)
  ⟨lerp c1.r c2.r local_t, lerp c1.g c2.g local_t, lerp c1.b c2.b local_t⟩

/-- A palette version: five stops plus the scalar transform parameters. -/
structure Palette where
  stops : Stops
  t_scale : ℚ
  t_bias : ℚ
  t_gamma : ℚ
deriving DecidableEq, Repr

/-- `TransmutationTabletPainter.PALETTES` (ttp.py:41-135), in declaration order. -/
def PALETTES : List (String × Palette) := [
  ("v2", ⟨⟨⟨180, 233, 255⟩, ⟨125, 225, 255⟩, ⟨85, 205, 255⟩, ⟨55, 170, 220⟩, ⟨25, 120, 180⟩⟩,
    0.95, 0.05, 1.00⟩),
  ("v3", ⟨⟨⟨150, 215, 245⟩, ⟨100, 200, 240⟩, ⟨70, 175, 235⟩, ⟨42, 145, 205⟩, ⟨18, 95, 155⟩⟩,
    1.18, 0.08, 0.92⟩),
  ("v4", ⟨⟨⟨180, 233, 255⟩, ⟨180, 233, 255⟩, ⟨70, 175, 235⟩, ⟨70, 175, 235⟩, ⟨18, 95, 155⟩⟩,
    1.18, 0.08, 0.92⟩),
  ("v5", ⟨⟨⟨180, 233, 255⟩, ⟨180, 233, 255⟩, ⟨85, 205, 255⟩, ⟨85, 205, 255⟩, ⟨18, 95, 155⟩⟩,
    1.18, 0.08, 0.92⟩),
  ("v6", ⟨⟨⟨180, 233, 255⟩, ⟨180, 233, 255⟩, ⟨85, 205, 255⟩, ⟨85, 205, 255⟩, ⟨22, 110, 170⟩⟩,
    1.18, 0.08, 0.92⟩),
  ("v7", ⟨⟨⟨180, 233, 255⟩, ⟨180, 233, 255⟩, ⟨76, 187, 243⟩, ⟨76, 187, 243⟩, ⟨22, 110, 170⟩⟩,
    1.18, 0.08, 0.92⟩)]

/-- `colorsys.rgb_to_hsv` on exact rationals (the decimal float literals of the
source are read as the decimal rationals they denote). -/
def rgb_to_hsv (r g b : ℚ) : ℚ × ℚ × ℚ :=
  let maxc := max r (max g b)
  let minc := min r (min g b)
  let v := maxc
  if minc = maxc then (0, 0, v)
  else
    let rangec := maxc - minc
    let s := rangec / maxc
    let rc := (maxc - r) / rangec
    let gc := (maxc - g) / rangec
    let bc := (maxc - b) / rangec
    let h := if r = maxc then bc - gc
      else if g = maxc then 2 + rc - bc
      else 4 + gc - rc
    (Int.fract (h / 6), s, v)

/-- `TransmutationTabletPainter.is_reddish_or_pink` (ttp.py:194-235). -/
def is_reddish_or_pink (r g b : ℤ) : Bool :=
  let rf : ℚ := r / 255
  let gf : ℚ := g / 255
  let bf : ℚ := b / 255
  let hsv := rgb_to_hsv rf gf bf
  let h := hsv.1
  let s := hsv.2.1
  let v := hsv.2.2
  let red_hue := decide (h ≤ 0.06) || decide (h ≥ 0.85)
  let magenta_hue := decide (0.78 ≤ h) && decide (h ≤ 0.85)
  let hsv_hit := (red_hue || magenta_hue) && decide (s ≥ 0.08) && decide (v ≥ 0.15)
  let rgb_hit :=
    (decide (r ≥ 140) && decide (r ≥ g + 8) && decide (r ≥ b + 8)) ||
    (decide (r ≥ 200) && (decide (g ≥ 150) || decide (b ≥ 150)))
  hsv_hit || rgb_hit

/-- `TransmutationTabletPainter.luminance`: ITU-R BT.709 weights. -/
def luminance (r g b : ℤ) : ℚ :=
  0.2126 * r + 0.7152 * g + 0.0722 * b

/-- One RGBA pixel as returned by `img.load()[x, y]`. -/
structure Pixel where
  r : ℤ
  g : ℤ
  b : ℤ
  a : ℤ
deriving DecidableEq, Repr

/-- The per-pixel body of `TransmutationTabletPainter.paint` (ttp.py:314-347).
`fpow` abstracts the float power `t ** t_gamma` (the one transcendental
operation of the source); every theorem below holds for every `fpow`. -/
def paintPixel (fpow : ℚ → ℚ → ℚ) (cfg : Palette) (p : Pixel) : Pixel :=
  if p.a = 0 then ⟨0, 0, 0, 0⟩
  else if is_reddish_or_pink p.r p.g p.b then
    let y := luminance p.r p.g p.b
    let t1 := 1 - y / 255
    let t2 := min 1 (max 0 (t1 * cfg.t_scale + cfg.t_bias))
    let t3 := if cfg.t_gamma ≠ 1 then max 0 (min 1 (fpow t2 cfg.t_gamma)) else t2
    let c := gradient_color cfg.stops t3
    ⟨c.r, c.g, c.b, p.a⟩
  else p

/-- Errors of `paint`: unknown palette version (`ValueError` in the source). -/
inductive PaintError where
  | unknownVersion
deriving DecidableEq, Repr

/-- `TransmutationTabletPainter.paint` on an image given as rows of pixels:
validate the version against `PALETTES`, then recolor every pixel. -/
def paint (fpow : ℚ → ℚ → ℚ) (version : String) (img : List (List Pixel)) :
    Except PaintError (List (List Pixel)) :=
  match PALETTES.find? (fun vp => vp.1 = version) with
  | none => .error .unknownVersion
  | some vp => .ok (img.map (fun row => row.map (paintPixel fpow vp.2)))

/-- `pyRound` of an integer is that integer. -/
theorem pyRound_intCast (a : ℤ) : pyRound (a : ℚ) = a := by
  simp [pyRound]

/-- `lerp` at local position `0` returns the first endpoint exactly. -/
theorem lerp_zero (a b : ℤ) : lerp a b 0 = a := by
  simp [lerp]
  simpa using pyRound_intCast a

/-- `lerp` at local position `1` returns the second endpoint exactly. -/
theorem lerp_one (a b : ℤ) : lerp a b 1 = b := by
  have : ((a : ℚ) + (b - a) * 1) = (b : ℚ) := by ring
  rw [lerp, this, pyRound_intCast]

/-- C8. Gradient stop boundaries: for `t` exactly at a stop boundary `k/4`
(`k = 0..4`), `gradient_color` returns exactly that stop's color — the segment
index is `min(floor(t*4), 3)`, the local position `(t - seg/4)*4` degenerates to
`0` (or `1` at `k = 4`) and the rounded linear interpolation is exact on the
integer endpoints, so there is no interpolation drift. -/
theorem gradient_color_stop_boundary (st : Stops) (k : ℕ) (hk : k ≤ 4) :
    gradient_color st ((k : ℚ) / 4) = stopsGet st k := by
  interval_cases k <;>
    norm_num [gradient_color, stopsGet, lerp_zero, lerp_one,
      show Int.toNat 0 = 0 from rfl, show Int.toNat 1 = 1 from rfl,
      show Int.toNat 2 = 2 from rfl, show Int.toNat 3 = 3 from rfl,
      show Int.toNat 4 = 4 from rfl]

/-- Witness for C8 at the `t = 0.25` boundary of the v7 palette: the result is
exactly the second stop (180, 233, 255). -/
theorem gradient_color_stop_boundary_witness :
    gradient_color
      ⟨⟨180, 233, 255⟩, ⟨180, 233, 255⟩, ⟨76, 187, 243⟩, ⟨76, 187, 243⟩, ⟨22, 110, 170⟩⟩
      ((1 : ℚ) / 4) = ⟨180, 233, 255⟩ :=
  gradient_color_stop_boundary
    ⟨⟨180, 233, 255⟩, ⟨180, 233, 255⟩, ⟨76, 187, 243⟩, ⟨76, 187, 243⟩, ⟨22, 110, 170⟩⟩
    1 (by norm_num)

/-- Counterexample to C4 as stated: the fully transparent red pixel
(200, 50, 50, 0) is NOT output unchanged by `paint` — the source writes the
constant `(0, 0, 0, 0)` for every alpha-0 pixel (ttp.py:319-321), so the RGB
channels of a non-black transparent pixel are lost. -/
theorem paint_alpha_zero_counterexample :
    paint (fun t _ => t) "v7" [[⟨200, 50, 50, 0⟩]] = .ok [[⟨0, 0, 0, 0⟩]] ∧
    (⟨0, 0, 0, 0⟩ : Pixel) ≠ ⟨200, 50, 50, 0⟩ := by
  constructor
  · rfl
  · decide

/-- C4 (amended). Every pixel with alpha 0 is output as the fully transparent
black pixel (0, 0, 0, 0) — alpha is preserved (it was 0) but the RGB channels
are zeroed, not copied; the result is independent of the pixel's RGB color, of
the palette, and of the power function (no color computation is performed). -/
theorem paintPixel_alpha_zero (fpow : ℚ → ℚ → ℚ) (cfg : Palette) (p : Pixel)
    (ha : p.a = 0) : paintPixel fpow cfg p = ⟨0, 0, 0, 0⟩ := by
  simp [paintPixel, ha]

/-- Witness for C4 (amended) at a concrete input: the transparent red pixel
under the v7 palette maps to (0, 0, 0, 0). -/
theorem paintPixel_alpha_zero_witness :
    paintPixel (fun t _ => t)
      ⟨⟨⟨180, 233, 255⟩, ⟨180, 233, 255⟩, ⟨76, 187, 243⟩, ⟨76, 187, 243⟩, ⟨22, 110, 170⟩⟩,
        1.18, 0.08, 0.92⟩
      ⟨200, 50, 50, 0⟩ = ⟨0, 0, 0, 0⟩ :=
  paintPixel_alpha_zero _ _ _ rfl

/-! ## Archive patch pipeline (`JarPatcher.apply`, src/mods/patcher.py:78-141)

The pipeline is embedded as a transition system over an abstract filesystem
that tracks the four locations `apply` touches: the workspace directory, the
source archive file, the sibling temporary file (`<jar>.__new__`) and the
distinct output file (used when `output_dir` is given). Archive files hold
either nothing, the complete old archive, a partially written new archive
(`inProgress n` = the ZIP is open with `n` member files written so far) or the
complete new archive. `os.replace` is a single atomic transition, per its
contract; the ZIP-writing loop is one transition per member file, so that
intermediate states are observable in the returned trace. -/

/-- Content of an archive file location. -/
inductive Content where
  | absent
  | oldArchive
  | inProgress (filesWritten : ℕ)
  | newArchive
deriving DecidableEq, Repr

/-- The filesystem locations `apply` touches. -/
structure FS where
  workDirExists : Bool
  source : Content
  temp : Content
  outputOther : Content
deriving DecidableEq, Repr

/-- Errors of `apply` (the Python exception raised on each path; the spec names
them `NotFoundError`, a format `ValueError`, `IntegrityError`,
`ExtractionError`, and errors propagating out of `run()` and repacking). -/
inductive ApplyError where
  | fileNotFound
  | formatError
  | md5Error
  | extractError
  | runError
  | repackError
deriving DecidableEq, Repr

/-- `META` (src/meta.py): mod name → archive file name → expected MD5.
(The patcher class of each tuple plays no role in `apply` and is omitted.) -/
def META : List (String × List (String × String)) := [
  ("projecte", [
    ("ProjectE-1.21.1-PE1.1.0.jar", "a0f0f11aea6c636b2652ea42f773c0b2"),
    ("ProjectE-1.20.1-PE1.0.1.jar", "1d62009c904dbd367820ceeadaabefac"),
    ("ProjectE-1.19.2-PE1.1.0.jar", "ae09bb6b2345da071204a790360609b1"),
    ("ProjectE-1.18.2-PE1.0.2.jar", "3a73ae740ee7cf05bd38872c12baa2c1"),
    ("ProjectE-1.16.5-PE1.0.2.jar", "848dc3a796f9723c49e14bf374b2ba58"),
    ("ProjectE-1.12.2-PE1.4.1.jar", "4601ba2741f192bcd01d132aa3e219b5")]),
  ("immersive_aircraft", [
    ("immersive_aircraft-1.4.0+1.20.1-forge.jar", "f49ff767f611a95f9bd29a0e9977d9d5")])]

/-- `META.get(mod_name, {})` of the source. -/
def metaMod (modName : String) : List (String × String) :=
  match META.find? (fun kv => kv.1 = modName) with
  | some kv => kv.2
  | none => []

/-- `self.jar_path.name in META.get(self.mod_name, {})`. -/
def metaHasFile (modName fileName : String) : Bool :=
  dictMem (metaMod modName) fileName

/-- `META[self.mod_name][self.jar_path.name][0]`: the expected MD5. -/
def metaMd5 (modName fileName : String) : Option String :=
  ((metaMod modName).find? (fun kv => kv.1 = fileName)).map Prod.snd

/-- The caller-controlled inputs and environment behavior of one `apply` run:
the archive identity, the validation flag, whether extraction / the patch
script / the repack loop raise, how many workspace files the repack writes,
and whether the output path equals the source path (`output_dir is None`). -/
structure RunCfg where
  jarExists : Bool
  modName : String
  fileName : String
  actualMd5 : String
  validateJar : Bool
  extractRaises : Bool
  runRaises : Bool
  nFiles : ℕ
  repackFailsAt : Option ℕ
  outputEqualsSource : Bool
deriving DecidableEq, Repr

/-- Write the new archive at the repack target (`temp` when overwriting the
source, `outputOther` otherwise). -/
def setOut (fs : FS) (toSource : Bool) (c : Content) : FS :=
  if toSource then { fs with temp := c } else { fs with outputOther := c }

/-- The ZIP-writing loop of src/mods/patcher.py:132-135: open the target
(0 files written), write the member files one by one, close (complete archive).
Returns the intermediate snapshots, the final state and whether the loop
completed (it fails after `i` files when `repackFailsAt = some i ≤ nFiles`). -/
def writeLoop (toSource : Bool) (nFiles : ℕ) (failAt : Option ℕ) (fs : FS) :
    List FS × FS × Bool :=
  let stop := match failAt with
    | some i => min i nFiles
    | none => nFiles
  let snaps := (List.range (stop + 1)).map (fun i => setOut fs toSource (.inProgress i))
  let failed : Bool := match failAt with
    | some i => decide (i ≤ nFiles)
    | none => false
  if failed then (snaps, setOut fs toSource (.inProgress stop), false)
  else
    let done := setOut fs toSource .newArchive
    (snaps ++ [done], done, true)

/-- State after a successful repack, once `os.replace` ran: when the output
path equals the source path the temp file's (complete) content is atomically
moved onto the source (src/mods/patcher.py:137-138); otherwise nothing moves. -/
def publishFS (cfg : RunCfg) (fs : FS) : FS :=
  if cfg.outputEqualsSource then
    { (writeLoop cfg.outputEqualsSource cfg.nFiles cfg.repackFailsAt
        { fs with workDirExists := true }).2.1 with
      source := (writeLoop cfg.outputEqualsSource cfg.nFiles cfg.repackFailsAt
        { fs with workDirExists := true }).2.1.temp
      temp := .absent }
  else (writeLoop cfg.outputEqualsSource cfg.nFiles cfg.repackFailsAt
    { fs with workDirExists := true }).2.1

/-- State after the final `shutil.rmtree(self.work_dir)` of the success path. -/
def finishFS (cfg : RunCfg) (fs : FS) : FS :=
  { publishFS cfg fs with workDirExists := false }

/-- `JarPatcher.apply` (src/mods/patcher.py:78-141): existence check, registry
check, optional MD5 check, workspace preparation, extraction, `run()`, repack
(via the sibling temp file plus `os.replace` when overwriting the source),
workspace removal. Returns the final filesystem state, the trace of
intermediate states after the workspace is created, and the raised error
(`none` on normal return). Python's unhandled exceptions simply propagate:
there is no `try`/`finally` around steps 3–5, so an error exits immediately
with the state as it stands. -/
def apply (cfg : RunCfg) (fs : FS) : FS × List FS × Option ApplyError :=
  if ¬cfg.jarExists then (fs, [], some .fileNotFound)
  else if ¬metaHasFile cfg.modName cfg.fileName then (fs, [], some .formatError)
  else if cfg.validateJar ∧ metaMd5 cfg.modName cfg.fileName ≠ some cfg.actualMd5 then
    (fs, [], some .md5Error)
  else if cfg.extractRaises then
    ({ fs with workDirExists := true }, [{ fs with workDirExists := true }], some .extractError)
  else if cfg.runRaises then
    ({ fs with workDirExists := true }, [{ fs with workDirExists := true }], some .runError)
  else if ¬(writeLoop cfg.outputEqualsSource cfg.nFiles cfg.repackFailsAt
      { fs with workDirExists := true }).2.2 then
    ((writeLoop cfg.outputEqualsSource cfg.nFiles cfg.repackFailsAt
        { fs with workDirExists := true }).2.1,
      { fs with workDirExists := true } ::
        (writeLoop cfg.outputEqualsSource cfg.nFiles cfg.repackFailsAt
          { fs with workDirExists := true }).1,
      some .repackError)
  else
    (finishFS cfg fs,
      { fs with workDirExists := true } ::
        (writeLoop cfg.outputEqualsSource cfg.nFiles cfg.repackFailsAt
          { fs with workDirExists := true }).1 ++ [publishFS cfg fs, finishFS cfg fs],
      none)

/-- `setOut` never touches the workspace flag. -/
theorem setOut_workDirExists (fs : FS) (b : Bool) (c : Content) :
    (setOut fs b c).workDirExists = fs.workDirExists := by
  unfold setOut; split <;> rfl

/-- `setOut` never touches the source archive. -/
theorem setOut_source (fs : FS) (b : Bool) (c : Content) :
    (setOut fs b c).source = fs.source := by
  unfold setOut; split <;> rfl

/-- Writing to the distinct output file never touches the temp file. -/
theorem setOut_temp_of_not_toSource (fs : FS) (c : Content) :
    (setOut fs false c).temp = fs.temp := by
  rfl

/-- Writing to the distinct output file sets it. -/
theorem setOut_outputOther_of_not_toSource (fs : FS) (c : Content) :
    (setOut fs false c).outputOther = c := by
  rfl

/-- Every snapshot of the ZIP-writing loop is the starting state with only the
repack target changed. -/
theorem writeLoop_mem (ts : Bool) (n : ℕ) (fa : Option ℕ) (fs : FS) :
    ∀ s ∈ (writeLoop ts n fa fs).1, ∃ c, s = setOut fs ts c := by
  simp only [writeLoop]
  split_ifs with h <;> intro s hs
  · simp only [List.mem_map, List.mem_range] at hs
    obtain ⟨i, _, rfl⟩ := hs
    exact ⟨_, rfl⟩
  · rcases List.mem_append.mp hs with hs | hs
    · simp only [List.mem_map, List.mem_range] at hs
      obtain ⟨i, _, rfl⟩ := hs
      exact ⟨_, rfl⟩
    · simp only [List.mem_singleton] at hs
      subst hs
      exact ⟨_, rfl⟩

/-- The ZIP-writing loop's final state is the starting state with only the
repack target changed. -/
theorem writeLoop_final (ts : Bool) (n : ℕ) (fa : Option ℕ) (fs : FS) :
    ∃ c, (writeLoop ts n fa fs).2.1 = setOut fs ts c := by
  simp only [writeLoop]
  split_ifs with h
  · exact ⟨_, rfl⟩
  · exact ⟨_, rfl⟩

/-- When the ZIP-writing loop reports success, the target holds the complete
new archive (the whole write precedes any later rename). -/
theorem writeLoop_success (ts : Bool) (n : ℕ) (fa : Option ℕ) (fs : FS) :
    (writeLoop ts n fa fs).2.2 = true →
    (writeLoop ts n fa fs).2.1 = setOut fs ts .newArchive := by
  simp only [writeLoop]
  split_ifs with h
  · intro hc; cases hc
  · intro _; rfl

/-- Counterexample to C2 as stated: with a valid registered archive whose patch
script raises (`run()` throws), `apply` propagates the error while the
workspace directory still exists — there is no `try`/`finally` in
src/mods/patcher.py:78-141, so the cleanup of step 5 is skipped on the
exceptional exit. -/
theorem apply_workspace_leak_counterexample :
    (apply
      ⟨true, "projecte", "ProjectE-1.21.1-PE1.1.0.jar", "a0f0f11aea6c636b2652ea42f773c0b2",
        true, false, true, 0, none, true⟩
      ⟨false, .oldArchive, .absent, .absent⟩).2.2 = some ApplyError.runError ∧
    (apply
      ⟨true, "projecte", "ProjectE-1.21.1-PE1.1.0.jar", "a0f0f11aea6c636b2652ea42f773c0b2",
        true, false, true, 0, none, true⟩
      ⟨false, .oldArchive, .absent, .absent⟩).1.workDirExists = true := by
  constructor <;> rfl

/-- C2 (amended). The workspace directory is deleted before `apply` returns
normally; on an exceptional exit after the workspace was created (extraction
failure, a raise inside the patch script's `run()`, or a repack failure) the
workspace is left on disk — cleanup only happens at the end of the successful
path (and any pre-existing directory is cleared at the start of the next run). -/
theorem apply_workspace_cleanup (cfg : RunCfg) (fs : FS) :
    ((apply cfg fs).2.2 = none → (apply cfg fs).1.workDirExists = false) ∧
    (∀ e, (apply cfg fs).2.2 = some e →
      e = ApplyError.extractError ∨ e = ApplyError.runError ∨ e = ApplyError.repackError →
      (apply cfg fs).1.workDirExists = true) := by
  unfold apply
  split_ifs with h1 h2 h3 h4 h5 h6 <;>
    refine ⟨?_, ?_⟩ <;>
    first
      | (intro h; cases h; done)
      | (intro h; rfl)
      | (intro e he hd; cases he; done)
      | (intro e he hd; rfl)
      | (intro e he hd; injection he with he; subst he;
         rcases hd with h | h | h <;> cases h
         done)
      | (intro e he hd
         obtain ⟨c, hc⟩ := writeLoop_final cfg.outputEqualsSource cfg.nFiles cfg.repackFailsAt
           { fs with workDirExists := true }
         show (writeLoop cfg.outputEqualsSource cfg.nFiles cfg.repackFailsAt
           { fs with workDirExists := true }).2.1.workDirExists = true
         rw [hc, setOut_workDirExists])

/-- Witness for C2 (amended): a complete successful run (output over the
source, two member files) ends with the workspace deleted. -/
theorem apply_workspace_cleanup_witness :
    (apply
      ⟨true, "projecte", "ProjectE-1.21.1-PE1.1.0.jar", "a0f0f11aea6c636b2652ea42f773c0b2",
        true, false, false, 2, none, true⟩
      ⟨false, .oldArchive, .absent, .absent⟩).1.workDirExists = false :=
  (apply_workspace_cleanup _ _).1 (by rfl)

/-- Unfolding `publishFS` when the output path equals the source path. -/
theorem publishFS_toSource (cfg : RunCfg) (fs : FS) (h : cfg.outputEqualsSource = true) :
    publishFS cfg fs =
      { (writeLoop cfg.outputEqualsSource cfg.nFiles cfg.repackFailsAt
          { fs with workDirExists := true }).2.1 with
        source := (writeLoop cfg.outputEqualsSource cfg.nFiles cfg.repackFailsAt
          { fs with workDirExists := true }).2.1.temp
        temp := .absent } := by
  unfold publishFS
  rw [if_pos h]

/-- Unfolding `publishFS` when the output path is a distinct file. -/
theorem publishFS_toOther (cfg : RunCfg) (fs : FS) (h : cfg.outputEqualsSource = false) :
    publishFS cfg fs =
      (writeLoop cfg.outputEqualsSource cfg.nFiles cfg.repackFailsAt
        { fs with workDirExists := true }).2.1 := by
  unfold publishFS
  rw [if_neg (by simp [h])]


/-- Auxiliary: all four conclusions of the atomic-publish property hold
whenever `apply` raised an error and every traced state (and the final state)
kept the source archive complete and old — with the temp file untouched when
the output path is a distinct file. -/
theorem apply_atomic_error (cfg : RunCfg) (fs ffs : FS) (tr : List FS) (err : ApplyError)
    (happ : apply cfg fs = (ffs, tr, some err))
    (htr : ∀ s ∈ tr, s.source = Content.oldArchive ∧
      (cfg.outputEqualsSource = false → s.temp = Content.absent))
    (hffs : ffs.source = Content.oldArchive) :
    (∀ s ∈ (apply cfg fs).2.1, s.source = Content.oldArchive ∨ s.source = Content.newArchive) ∧
    (cfg.outputEqualsSource = false →
      (∀ s ∈ (apply cfg fs).2.1, s.source = Content.oldArchive ∧ s.temp = Content.absent) ∧
      (apply cfg fs).1.source = Content.oldArchive) ∧
    (cfg.outputEqualsSource = false → (apply cfg fs).2.2 = none →
      (apply cfg fs).1.outputOther = Content.newArchive) ∧
    (cfg.outputEqualsSource = true → (apply cfg fs).2.2 = none →
      (apply cfg fs).1.source = Content.newArchive) := by
  rw [happ]
  refine ⟨?_, fun hts => ⟨?_, hffs⟩, ?_, ?_⟩
  · intro s hs
    exact Or.inl (htr s hs).1
  · intro s hs
    exact ⟨(htr s hs).1, (htr s hs).2 ‹_›⟩
  · intro _ h; cases h
  · intro _ h; cases h

/-- C3. Atomic publish: starting from a clean state (source holds the complete
old archive, no leftover temp file), every state in the trace of `apply` has
the source file either as the complete old archive or the complete new archive
— never a partial write; when the output path differs from the source path the
source is byte-for-byte untouched (and no temp file is used) and on success
the new archive lands directly at the output path; when the output path equals
the source path, on success the source path holds the complete new archive,
which had been fully written to the sibling temp file before the rename. -/
theorem apply_atomic_publish (cfg : RunCfg) (fs : FS)
    (hsrc : fs.source = Content.oldArchive) (htemp : fs.temp = Content.absent) :
    (∀ s ∈ (apply cfg fs).2.1, s.source = Content.oldArchive ∨ s.source = Content.newArchive) ∧
    (cfg.outputEqualsSource = false →
      (∀ s ∈ (apply cfg fs).2.1, s.source = Content.oldArchive ∧ s.temp = Content.absent) ∧
      (apply cfg fs).1.source = Content.oldArchive) ∧
    (cfg.outputEqualsSource = false → (apply cfg fs).2.2 = none →
      (apply cfg fs).1.outputOther = Content.newArchive) ∧
    (cfg.outputEqualsSource = true → (apply cfg fs).2.2 = none →
      (apply cfg fs).1.source = Content.newArchive) := by
  by_cases hj : cfg.jarExists = true
  swap
  · refine apply_atomic_error cfg fs fs [] .fileNotFound ?_ (by simp) hsrc
    unfold apply
    rw [if_pos (by simp [hj])]
  by_cases hr : metaHasFile cfg.modName cfg.fileName = true
  swap
  · refine apply_atomic_error cfg fs fs [] .formatError ?_ (by simp) hsrc
    unfold apply
    rw [if_neg (by simp [hj]), if_pos hr]
  by_cases hm : cfg.validateJar = true ∧ metaMd5 cfg.modName cfg.fileName ≠ some cfg.actualMd5
  · refine apply_atomic_error cfg fs fs [] .md5Error ?_ (by simp) hsrc
    unfold apply
    rw [if_neg (by simp [hj]), if_neg (by simp [hr]), if_pos hm]
  by_cases he : cfg.extractRaises = true
  · refine apply_atomic_error cfg fs { fs with workDirExists := true }
      [{ fs with workDirExists := true }] .extractError ?_ ?_ hsrc
    · unfold apply
      rw [if_neg (by simp [hj]), if_neg (by simp [hr]), if_neg hm, if_pos he]
    · intro s hs
      simp only [List.mem_singleton] at hs
      subst hs
      exact ⟨hsrc, fun _ => htemp⟩
  by_cases hrun : cfg.runRaises = true
  · refine apply_atomic_error cfg fs { fs with workDirExists := true }
      [{ fs with workDirExists := true }] .runError ?_ ?_ hsrc
    · unfold apply
      rw [if_neg (by simp [hj]), if_neg (by simp [hr]), if_neg hm, if_neg he, if_pos hrun]
    · intro s hs
      simp only [List.mem_singleton] at hs
      subst hs
      exact ⟨hsrc, fun _ => htemp⟩
  by_cases hw : (writeLoop cfg.outputEqualsSource cfg.nFiles cfg.repackFailsAt
      { fs with workDirExists := true }).2.2 = true
  swap
  -- repack fails midway: the target holds a partially written archive, but the
  -- source itself is still the complete old archive
  · obtain ⟨cf, hcf⟩ := writeLoop_final cfg.outputEqualsSource cfg.nFiles cfg.repackFailsAt
      { fs with workDirExists := true }
    refine apply_atomic_error cfg fs
      (writeLoop cfg.outputEqualsSource cfg.nFiles cfg.repackFailsAt
        { fs with workDirExists := true }).2.1
      ({ fs with workDirExists := true } ::
        (writeLoop cfg.outputEqualsSource cfg.nFiles cfg.repackFailsAt
          { fs with workDirExists := true }).1)
      .repackError ?_ ?_ ?_
    · unfold apply
      rw [if_neg (by simp [hj]), if_neg (by simp [hr]), if_neg hm, if_neg he, if_neg hrun,
        if_pos (by simpa using hw)]
    · intro s hs
      rcases List.mem_cons.mp hs with rfl | hs
      · exact ⟨hsrc, fun _ => htemp⟩
      · obtain ⟨c, rfl⟩ := writeLoop_mem cfg.outputEqualsSource cfg.nFiles cfg.repackFailsAt
          { fs with workDirExists := true } s hs
        refine ⟨by rw [setOut_source]; exact hsrc, fun hts => ?_⟩
        rw [hts, setOut_temp_of_not_toSource]
        exact htemp
    · rw [hcf, setOut_source]
      exact hsrc
  -- success path
  · have happ : apply cfg fs =
        (finishFS cfg fs,
          { fs with workDirExists := true } ::
            (writeLoop cfg.outputEqualsSource cfg.nFiles cfg.repackFailsAt
              { fs with workDirExists := true }).1 ++ [publishFS cfg fs, finishFS cfg fs],
          none) := by
      unfold apply
      rw [if_neg (by simp [hj]), if_neg (by simp [hr]), if_neg hm, if_neg he, if_neg hrun,
        if_neg (by simp [hw])]
    have hdone := writeLoop_success cfg.outputEqualsSource cfg.nFiles cfg.repackFailsAt
      { fs with workDirExists := true } hw
    have hpubSrc : cfg.outputEqualsSource = true → (publishFS cfg fs).source = Content.newArchive := by
      intro hts
      rw [publishFS_toSource cfg fs hts]
      show (writeLoop cfg.outputEqualsSource cfg.nFiles cfg.repackFailsAt
        { fs with workDirExists := true }).2.1.temp = Content.newArchive
      rw [hdone, hts]
      rfl
    have hpubOld : cfg.outputEqualsSource = false →
        (publishFS cfg fs).source = Content.oldArchive ∧
        (publishFS cfg fs).temp = Content.absent ∧
        (publishFS cfg fs).outputOther = Content.newArchive := by
      intro hts
      rw [publishFS_toOther cfg fs hts, hdone, hts]
      exact ⟨hsrc, htemp, rfl⟩
    rw [happ]
    refine ⟨?_, fun hts => ⟨?_, ?_⟩, fun hts _ => ?_, fun hts _ => ?_⟩
    · intro s hs
      rcases List.mem_cons.mp hs with rfl | hs
      · exact Or.inl hsrc
      rcases List.mem_append.mp hs with hs | hs
      · obtain ⟨c, rfl⟩ := writeLoop_mem cfg.outputEqualsSource cfg.nFiles cfg.repackFailsAt
          { fs with workDirExists := true } s hs
        rw [setOut_source]
        exact Or.inl hsrc
      rcases List.mem_cons.mp hs with rfl | hs
      · by_cases hts : cfg.outputEqualsSource = true
        · exact Or.inr (hpubSrc hts)
        · exact Or.inl (hpubOld (by simpa using hts)).1
      simp only [List.mem_singleton] at hs
      subst hs
      show (publishFS cfg fs).source = Content.oldArchive ∨
        (publishFS cfg fs).source = Content.newArchive
      by_cases hts : cfg.outputEqualsSource = true
      · exact Or.inr (hpubSrc hts)
      · exact Or.inl (hpubOld (by simpa using hts)).1
    · intro s hs
      rcases List.mem_cons.mp hs with rfl | hs
      · exact ⟨hsrc, htemp⟩
      rcases List.mem_append.mp hs with hs | hs
      · obtain ⟨c, rfl⟩ := writeLoop_mem cfg.outputEqualsSource cfg.nFiles cfg.repackFailsAt
          { fs with workDirExists := true } s hs
        rw [hts, setOut_source, setOut_temp_of_not_toSource]
        exact ⟨hsrc, htemp⟩
      rcases List.mem_cons.mp hs with rfl | hs
      · exact ⟨(hpubOld hts).1, (hpubOld hts).2.1⟩
      simp only [List.mem_singleton] at hs
      subst hs
      exact ⟨(hpubOld hts).1, (hpubOld hts).2.1⟩
    · exact (hpubOld hts).1
    · exact (hpubOld hts).2.2
    · exact hpubSrc hts

/-- Witness for C3: an in-place successful run (two member files) ends with the
complete new archive at the source path. -/
theorem apply_atomic_publish_witness :
    (apply
      ⟨true, "projecte", "ProjectE-1.21.1-PE1.1.0.jar", "a0f0f11aea6c636b2652ea42f773c0b2",
        true, false, false, 2, none, true⟩
      ⟨false, .oldArchive, .absent, .absent⟩).1.source = Content.newArchive :=
  (apply_atomic_publish _ _ rfl rfl).2.2.2 rfl rfl

/-- C9. Checksum gate: when validation is requested and the expected MD5 of the
(existing, registered) archive differs from the computed one, `apply` returns
the checksum-mismatch error with the filesystem exactly as it was and an empty
trace — no workspace directory is created or repopulated, nothing is extracted,
and neither the output path nor anything else is created or modified. -/
theorem apply_md5_mismatch_aborts (cfg : RunCfg) (fs : FS)
    (hj : cfg.jarExists = true)
    (hr : metaHasFile cfg.modName cfg.fileName = true)
    (hv : cfg.validateJar = true)
    (hm : metaMd5 cfg.modName cfg.fileName ≠ some cfg.actualMd5) :
    apply cfg fs = (fs, [], some ApplyError.md5Error) := by
  unfold apply
  rw [if_neg (by simp [hj]), if_neg (by simp [hr]), if_pos ⟨hv, hm⟩]

/-- Witness for C9: a registered ProjectE archive with a wrong actual MD5
aborts with the checksum error, leaving a clean filesystem untouched. -/
theorem apply_md5_mismatch_aborts_witness :
    apply
      ⟨true, "projecte", "ProjectE-1.21.1-PE1.1.0.jar", "00000000000000000000000000000000",
        true, false, false, 0, none, true⟩
      ⟨false, .oldArchive, .absent, .absent⟩ =
      (⟨false, .oldArchive, .absent, .absent⟩, [], some ApplyError.md5Error) :=
  apply_md5_mismatch_aborts _ _ rfl (by decide) rfl (by decide)

/-- C10. The registry-membership check is unconditional: even with
`validate_jar = False`, an archive name that is not registered under the given
mod name makes `apply` return the format error with the filesystem unchanged
and an empty trace (before any workspace creation, extraction or output
write); disabling validation only skips the checksum comparison — with
`validate_jar = False` the checksum-mismatch error can never be raised. -/
theorem apply_registry_check_unconditional (cfg : RunCfg) (fs : FS) :
    (cfg.jarExists = true → cfg.validateJar = false →
      metaHasFile cfg.modName cfg.fileName = false →
      apply cfg fs = (fs, [], some ApplyError.formatError)) ∧
    (cfg.validateJar = false → (apply cfg fs).2.2 ≠ some ApplyError.md5Error) := by
  constructor
  · intro hj hv hr
    unfold apply
    rw [if_neg (by simp [hj]), if_pos (by simp [hr])]
  · intro hv
    unfold apply
    split_ifs with h1 h2 h3 h4 h5 h6 <;> simp_all

/-- Witness for C10: with validation disabled, an unregistered archive name
still aborts with the format error (filesystem untouched), and the checksum
error cannot occur. -/
theorem apply_registry_check_unconditional_witness :
    apply
      ⟨true, "projecte", "unregistered.jar", "irrelevant", false, false, false, 0, none, true⟩
      ⟨false, .oldArchive, .absent, .absent⟩ =
      (⟨false, .oldArchive, .absent, .absent⟩, [], some ApplyError.formatError) ∧
    (apply
      ⟨true, "projecte", "unregistered.jar", "irrelevant", false, false, false, 0, none, true⟩
      ⟨false, .oldArchive, .absent, .absent⟩).2.2 ≠ some ApplyError.md5Error :=
  ⟨(apply_registry_check_unconditional _ _).1 rfl rfl (by decide),
   (apply_registry_check_unconditional _ _).2 rfl⟩

/-! ## Structured file store: JSON (`read_json`/`write_json`, src/mods/patcher.py:143-173)

The store wraps Python's `json` module. The JSON value domain is modelled with
ordered objects (Python `dict`s: string keys, insertion order, duplicate keys
collapse with the last value winning) and integer numbers (the repository's
JSON data uses no floats; IEEE-float round-tripping is outside the model).
`json.dump(data, f, indent=N, ensure_ascii=B)` is modelled by `json_dumps B N`
and `json.load` by `json_loads`. -/

/-- The JSON value model: Python's parse target for `json.load`. -/
inductive JsonValue where
  | null
  | bool (b : Bool)
  | num (n : ℤ)
  | str (s : String)
  | arr (elems : List JsonValue)
  | obj (fields : List (String × JsonValue))
deriving Repr

/-- Lowercase hexadecimal digit, as in Python's `\uXXXX` escapes. -/
def hexDigitChar (n : ℕ) : Char :=
  if n < 10 then Char.ofNat (48 + n) else Char.ofNat (87 + n)

/-- A `\uXXXX` escape for a code unit below `0x10000`. -/
def uEscape (n : ℕ) : List Char :=
  ['\\', 'u', hexDigitChar (n / 4096 % 16), hexDigitChar (n / 256 % 16),
    hexDigitChar (n / 16 % 16), hexDigitChar (n % 16)]

/-- Per-character JSON string escaping of `json.dump`: `"` and `\` and control
characters are always escaped (shorthands for the five common ones, `\u00XX`
for the rest); non-ASCII characters are escaped (with surrogate pairs above
the basic plane) exactly when `ensure_ascii` is set, and copied verbatim
otherwise. -/
def escapeChar (ensureAscii : Bool) (c : Char) : List Char :=
  if c = '"' then ['\\', '"']
  else if c = '\\' then ['\\', '\\']
  else if c = '\x08' then ['\\', 'b']
  else if c = '\x0c' then ['\\', 'f']
  else if c = '\n' then ['\\', 'n']
  else if c = '\r' then ['\\', 'r']
  else if c = '\t' then ['\\', 't']
  else if c.toNat < 0x20 then uEscape c.toNat
  else if ensureAscii && decide (c.toNat ≥ 0x80) then
    if c.toNat < 0x10000 then uEscape c.toNat
    else uEscape (0xD800 + (c.toNat - 0x10000) / 0x400) ++
      uEscape (0xDC00 + (c.toNat - 0x10000) % 0x400)
  else [c]

/-- A JSON string literal: quote, escaped characters, quote. -/
def dumpStr (ensureAscii : Bool) (s : String) : List Char :=
  '"' :: (s.data.map (escapeChar ensureAscii)).flatten ++ ['"']

/-- Decimal digit character. -/
def digitChar (d : ℕ) : Char := Char.ofNat (48 + d)

/-- Python `str(n)` for a natural number. -/
def natChars (n : ℕ) : List Char :=
  if n = 0 then ['0'] else ((Nat.digits 10 n).map digitChar).reverse

/-- Python `str(n)` for an integer. -/
def intChars (n : ℤ) : List Char :=
  if n < 0 then '-' :: natChars n.natAbs else natChars n.toNat

/-- Indentation prefix (`indent` spaces per nesting level). -/
def indentChars (n : ℕ) : List Char := List.replicate n ' '

mutual
/-- `json.dump` with `indent=ind` at nesting depth `depth` (CPython's pretty
printer: empty containers inline, members one per line, item separator `,`,
key separator `: `). -/
def dumpVal (ea : Bool) (ind depth : ℕ) : JsonValue → List Char
  | .null => ['n', 'u', 'l', 'l']
  | .bool b => cond b ['t', 'r', 'u', 'e'] ['f', 'a', 'l', 's', 'e']
  | .num n => intChars n
  | .str s => dumpStr ea s
  | .arr [] => ['[', ']']
  | .arr (x :: xs) =>
    '[' :: '\n' :: (dumpArrItems ea ind depth (x :: xs) ++
      '\n' :: indentChars (ind * depth) ++ [']'])
  | .obj [] => ['\x7b', '\x7d']
  | .obj (f :: fsx) =>
    '\x7b' :: '\n' :: (dumpObjItems ea ind depth (f :: fsx) ++
      '\n' :: indentChars (ind * depth) ++ ['\x7d'])

/-- The member lines of a non-empty JSON array. -/
def dumpArrItems (ea : Bool) (ind depth : ℕ) : List JsonValue → List Char
  | [] => []
  | [x] => indentChars (ind * (depth + 1)) ++ dumpVal ea ind (depth + 1) x
  | x :: y :: xs =>
    indentChars (ind * (depth + 1)) ++ dumpVal ea ind (depth + 1) x ++
      ',' :: '\n' :: dumpArrItems ea ind depth (y :: xs)

/-- The member lines of a non-empty JSON object. -/
def dumpObjItems (ea : Bool) (ind depth : ℕ) : List (String × JsonValue) → List Char
  | [] => []
  | [(k, v)] =>
    indentChars (ind * (depth + 1)) ++ dumpStr ea k ++
      ':' :: ' ' :: dumpVal ea ind (depth + 1) v
  | (k, v) :: f :: fsx =>
    indentChars (ind * (depth + 1)) ++ dumpStr ea k ++
      ':' :: ' ' :: dumpVal ea ind (depth + 1) v ++
      ',' :: '\n' :: dumpObjItems ea ind depth (f :: fsx)
end

/-- `json.dumps(v, indent=ind, ensure_ascii=ea)`. -/
def json_dumps (ea : Bool) (ind : ℕ) (v : JsonValue) : String :=
  ⟨dumpVal ea ind 0 v⟩

/-- `JarPatcher.write_json` (src/mods/patcher.py:161-173): the serialized text
written to the workspace file — `json.dump(data, f, indent=4,
ensure_ascii=False)`; the `encoding` parameter selects the byte encoding of
the file object, not the escaping, and does not affect this text. -/
def write_json (data : JsonValue) : String :=
  json_dumps false 4 data

/-- `JarPatcher.write_json` of src/patcher.py:96-98 (`indent=2`, same
hard-coded `ensure_ascii=False`). -/
def write_json_v0 (data : JsonValue) : String :=
  json_dumps false 2 data

/-- JSON whitespace. -/
def isWsChar (c : Char) : Bool :=
  c = ' ' || c = '\t' || c = '\n' || c = '\r'

/-- Skip leading whitespace. -/
def skipWs : List Char → List Char
  | [] => []
  | c :: cs => if isWsChar c then skipWs cs else c :: cs

/-- Value of a hexadecimal digit character. -/
def hexVal (c : Char) : Option ℕ :=
  if '0' ≤ c ∧ c ≤ '9' then some (c.toNat - 48)
  else if 'a' ≤ c ∧ c ≤ 'f' then some (c.toNat - 87)
  else if 'A' ≤ c ∧ c ≤ 'F' then some (c.toNat - 55)
  else none

/-- The single-character JSON escapes. -/
def unescape1 (c : Char) : Option Char :=
  if c = '"' then some '"'
  else if c = '\\' then some '\\'
  else if c = '/' then some '/'
  else if c = 'b' then some '\x08'
  else if c = 'f' then some '\x0c'
  else if c = 'n' then some '\n'
  else if c = 'r' then some '\r'
  else if c = 't' then some '\t'
  else none

/-- Parse the body of a JSON string up to the closing quote, unescaping;
returns the decoded characters and the input after the quote. -/
def parseStrBody : ℕ → List Char → Option (List Char × List Char)
  | 0, _ => none
  | _ + 1, [] => none
  | fuel + 1, c :: cs =>
    if c = '"' then some ([], cs)
    else if c = '\\' then
      match cs with
      | 'u' :: h1 :: h2 :: h3 :: h4 :: cs2 =>
        match hexVal h1, hexVal h2, hexVal h3, hexVal h4 with
        | some a, some b, some c3, some d =>
          match parseStrBody fuel cs2 with
          | some (body, rest) =>
            some (Char.ofNat (((a * 16 + b) * 16 + c3) * 16 + d) :: body, rest)
          | none => none
        | _, _, _, _ => none
      | e :: cs2 =>
        match unescape1 e with
        | some d =>
          match parseStrBody fuel cs2 with
          | some (body, rest) => some (d :: body, rest)
          | none => none
        | none => none
      | [] => none
    else
      match parseStrBody fuel cs with
      | some (body, rest) => some (c :: body, rest)
      | none => none

/-- Maximal-munch decimal number accumulation. -/
def parseNatAux : List Char → ℕ → ℕ × List Char
  | [], acc => (acc, [])
  | c :: cs, acc =>
    if c.isDigit then parseNatAux cs (acc * 10 + (c.toNat - 48))
    else (acc, c :: cs)

/-- Parse a decimal natural number (at least one digit). -/
def parseNat : List Char → Option (ℕ × List Char)
  | [] => none
  | c :: cs =>
    if c.isDigit then some (parseNatAux (c :: cs) 0) else none

mutual
/-- Recursive-descent `json.loads` value parser (fuel-indexed; integers only
in the number grammar, matching the modelled value domain). Objects are built
with Python-`dict` insertion semantics. -/
def parseValue : ℕ → List Char → Option (JsonValue × List Char)
  | 0, _ => none
  | fuel + 1, input =>
    match skipWs input with
    | [] => none
    | c :: cs =>
      if c = 'n' then
        match cs with
        | 'u' :: 'l' :: 'l' :: rest => some (.null, rest)
        | _ => none
      else if c = 't' then
        match cs with
        | 'r' :: 'u' :: 'e' :: rest => some (.bool true, rest)
        | _ => none
      else if c = 'f' then
        match cs with
        | 'a' :: 'l' :: 's' :: 'e' :: rest => some (.bool false, rest)
        | _ => none
      else if c = '"' then
        match parseStrBody (cs.length + 1) cs with
        | some (body, rest) => some (.str ⟨body⟩, rest)
        | none => none
      else if c = '-' then
        match parseNat cs with
        | some (n, rest) => some (.num (-(n : ℤ)), rest)
        | none => none
      else if c.isDigit then
        match parseNat (c :: cs) with
        | some (n, rest) => some (.num (n : ℤ), rest)
        | none => none
      else if c = '[' then
        if (skipWs cs).head? = some ']' then some (.arr [], (skipWs cs).tail)
        else
          match parseArrItems fuel cs with
          | some (xs, rest) => some (.arr xs, rest)
          | none => none
      else if c = '\x7b' then
        if (skipWs cs).head? = some '\x7d' then some (.obj [], (skipWs cs).tail)
        else
          match parseObjItems fuel cs with
          | some (ps, rest) => some (.obj (dictUpdate [] ps), rest)
          | none => none
      else none

/-- Parse the members of a non-empty array, consuming the closing bracket. -/
def parseArrItems : ℕ → List Char → Option (List JsonValue × List Char)
  | 0, _ => none
  | fuel + 1, input =>
    match parseValue fuel input with
    | some (v, rest) =>
      match skipWs rest with
      | ',' :: rest2 =>
        match parseArrItems fuel rest2 with
        | some (vs, rest3) => some (v :: vs, rest3)
        | none => none
      | ']' :: rest2 => some ([v], rest2)
      | _ => none
    | none => none

/-- Parse the members of a non-empty object, consuming the closing brace. -/
def parseObjItems : ℕ → List Char → Option (List (String × JsonValue) × List Char)
  | 0, _ => none
  | fuel + 1, input =>
    match skipWs input with
    | '"' :: cs =>
      match parseStrBody (cs.length + 1) cs with
      | some (kbody, rest) =>
        match skipWs rest with
        | ':' :: rest2 =>
          match parseValue fuel rest2 with
          | some (v, rest3) =>
            match skipWs rest3 with
            | ',' :: rest4 =>
              match parseObjItems fuel rest4 with
              | some (ps, rest5) => some ((⟨kbody⟩, v) :: ps, rest5)
              | none => none
            | '\x7d' :: rest4 => some ([(⟨kbody⟩, v)], rest4)
            | _ => none
          | none => none
        | _ => none
      | none => none
    | _ => none
end

/-- `json.loads`: parse one value, allow only trailing whitespace. -/
def json_loads (s : String) : Option JsonValue :=
  match parseValue (s.length + 1) s.data with
  | some (v, rest) => if (skipWs rest).isEmpty then some v else none
  | none => none

/-- `JarPatcher.read_json` on the text of a workspace file. -/
def read_json (text : String) : Option JsonValue :=
  json_loads text

/-! ### Round-trip infrastructure -/

/-- A list of whitespace characters only. -/
def wsOnly (w : List Char) : Prop := ∀ c ∈ w, isWsChar c = true

/-- The continuation after a serialized number must not begin with a digit
(maximal munch); every continuation produced by the pretty printer qualifies. -/
def restOk : List Char → Prop
  | [] => True
  | c :: _ => c.isDigit = false

theorem skipWs_append (w t : List Char) (hw : wsOnly w) :
    skipWs (w ++ t) = skipWs t := by
  induction w with
  | nil => rfl
  | cons c cs ih =>
    have hc := hw c (List.mem_cons_self c cs)
    simp only [List.cons_append, skipWs, hc, if_true]
    exact ih (fun x hx => hw x (List.mem_cons_of_mem c hx))

theorem skipWs_cons_not_ws (c : Char) (cs : List Char) (hc : isWsChar c = false) :
    skipWs (c :: cs) = c :: cs := by
  simp [skipWs, hc]

theorem wsOnly_indentChars (n : ℕ) : wsOnly (indentChars n) := by
  intro c hc
  simp only [indentChars, List.mem_replicate] at hc
  rw [hc.2]
  rfl

theorem wsOnly_newline_indent (n : ℕ) : wsOnly ('\n' :: indentChars n) := by
  intro c hc
  rcases List.mem_cons.mp hc with rfl | hc
  · rfl
  · exact wsOnly_indentChars n c hc

theorem digitChar_toNat (d : ℕ) (hd : d < 10) : (digitChar d).toNat = 48 + d := by
  interval_cases d <;> decide

theorem digitChar_isDigit (d : ℕ) (hd : d < 10) : (digitChar d).isDigit = true := by
  interval_cases d <;> decide

theorem natChars_all_digits (n : ℕ) : ∀ c ∈ natChars n, c.isDigit = true := by
  intro c hc
  unfold natChars at hc
  split at hc
  · simp only [List.mem_singleton] at hc
    subst hc
    decide
  · simp only [List.mem_reverse, List.mem_map] at hc
    obtain ⟨d, hd, rfl⟩ := hc
    exact digitChar_isDigit d (Nat.digits_lt_base (by norm_num) hd)

theorem parseNatAux_append (ds rest : List Char) (acc : ℕ)
    (hds : ∀ c ∈ ds, c.isDigit = true) (hrest : restOk rest) :
    parseNatAux (ds ++ rest) acc =
      (ds.foldl (fun a c => a * 10 + (c.toNat - 48)) acc, rest) := by
  induction ds generalizing acc with
  | nil =>
    cases rest with
    | nil => rfl
    | cons r rs =>
      simp only [List.nil_append, parseNatAux, List.foldl_nil]
      rw [if_neg]
      simp only [restOk] at hrest
      simp [hrest]
  | cons c cs ih =>
    have hc := hds c (List.mem_cons_self c cs)
    simp only [List.cons_append, parseNatAux, hc, if_true, List.foldl_cons]
    exact ih _ (fun x hx => hds x (List.mem_cons_of_mem c hx))

theorem foldl_digits_eq (l : List ℕ) (acc : ℕ) (hl : ∀ d ∈ l, d < 10) :
    l.foldl (fun a d => a * 10 + d) acc = acc * 10 ^ l.length + Nat.ofDigits 10 l.reverse := by
  induction l generalizing acc with
  | nil => simp [Nat.ofDigits]
  | cons d t ih =>
    simp only [List.foldl_cons, List.reverse_cons, List.length_cons]
    rw [ih _ (fun x hx => hl x (List.mem_cons_of_mem d hx)), Nat.ofDigits_append]
    simp [Nat.ofDigits]
    ring

theorem natChars_foldl (n : ℕ) :
    (natChars n).foldl (fun a c => a * 10 + (c.toNat - 48)) 0 = n := by
  unfold natChars
  split
  · subst n; rfl
  · rw [← List.map_reverse, List.foldl_map]
    have hdig : ∀ d ∈ (Nat.digits 10 n).reverse, d < 10 := fun d hd =>
      Nat.digits_lt_base (by norm_num) (List.mem_reverse.mp hd)
    rw [List.foldl_ext (fun a c => a * 10 + ((digitChar c).toNat - 48))
      (fun a d => a * 10 + d) 0
      (fun a d hd => by
        show a * 10 + ((digitChar d).toNat - 48) = a * 10 + d
        rw [digitChar_toNat d (hdig d hd)]
        omega)]
    rw [foldl_digits_eq _ _ hdig]
    simp [List.reverse_reverse, Nat.ofDigits_digits]

theorem natChars_ne_nil (n : ℕ) : natChars n ≠ [] := by
  unfold natChars
  split
  · simp
  · intro h
    rw [List.reverse_eq_nil_iff, List.map_eq_nil_iff] at h
    exact (Nat.digits_ne_nil_iff_ne_zero.mpr (by omega)) h

theorem parseNat_natChars (n : ℕ) (rest : List Char) (hrest : restOk rest) :
    parseNat (natChars n ++ rest) = some (n, rest) := by
  have hd := natChars_all_digits n
  have haux := parseNatAux_append (natChars n) rest 0 hd hrest
  rw [natChars_foldl] at haux
  cases hcs : natChars n with
  | nil => exact absurd hcs (natChars_ne_nil n)
  | cons c cs =>
    rw [hcs] at haux
    simp only [List.cons_append] at haux ⊢
    rw [show parseNat (c :: (cs ++ rest)) =
        if c.isDigit = true then some (parseNatAux (c :: (cs ++ rest)) 0) else none from rfl]
    rw [if_pos (hd c (by rw [hcs]; exact List.mem_cons_self c cs)), haux]

theorem hexVal_hexDigitChar (x : ℕ) (hx : x < 16) :
    hexVal (hexDigitChar x) = some x := by
  interval_cases x <;> decide

theorem parseStrBody_dump (data : List Char) : ∀ (fuel : ℕ) (rest : List Char),
    data.length < fuel →
    parseStrBody fuel ((data.map (escapeChar false)).flatten ++ '"' :: rest) =
      some (data, rest) := by
  induction data with
  | nil =>
    intro fuel rest hf
    cases fuel with
    | zero => omega
    | succ f => rfl
  | cons c cs ih =>
    intro fuel rest hf
    cases fuel with
    | zero => omega
    | succ f =>
      have hf' : cs.length < f := by
        simp only [List.length_cons] at hf
        omega
      have ihf := ih f rest hf'
      simp only [List.map_cons, List.flatten_cons, List.append_assoc]
      by_cases h1 : c = '"'
      · subst h1
        simp [escapeChar, parseStrBody, unescape1, ihf]
      by_cases h2 : c = '\\'
      · subst h2
        simp [escapeChar, parseStrBody, unescape1, ihf]
      by_cases h3 : c = '\x08'
      · subst h3
        simp [escapeChar, parseStrBody, unescape1, ihf]
      by_cases h4 : c = '\x0c'
      · subst h4
        simp [escapeChar, parseStrBody, unescape1, ihf]
      by_cases h5 : c = '\n'
      · subst h5
        simp [escapeChar, parseStrBody, unescape1, ihf]
      by_cases h6 : c = '\r'
      · subst h6
        simp [escapeChar, parseStrBody, unescape1, ihf]
      by_cases h7 : c = '\t'
      · subst h7
        simp [escapeChar, parseStrBody, unescape1, ihf]
      by_cases h8 : c.toNat < 0x20
      · have hesc : escapeChar false c = uEscape c.toNat := by
          unfold escapeChar
          rw [if_neg h1, if_neg h2, if_neg h3, if_neg h4, if_neg h5, if_neg h6, if_neg h7,
            if_pos h8]
        rw [hesc]
        unfold uEscape
        have e1 := hexVal_hexDigitChar (c.toNat / 4096 % 16) (Nat.mod_lt _ (by norm_num))
        have e2 := hexVal_hexDigitChar (c.toNat / 256 % 16) (Nat.mod_lt _ (by norm_num))
        have e3 := hexVal_hexDigitChar (c.toNat / 16 % 16) (Nat.mod_lt _ (by norm_num))
        have e4 := hexVal_hexDigitChar (c.toNat % 16) (Nat.mod_lt _ (by norm_num))
        have hval : (((c.toNat / 4096 % 16 * 16 + c.toNat / 256 % 16) * 16 +
            c.toNat / 16 % 16) * 16 + c.toNat % 16) = c.toNat := by
          omega
        simp [parseStrBody, e1, e2, e3, e4, ihf, hval, Char.ofNat_toNat]
      · have hesc : escapeChar false c = [c] := by
          unfold escapeChar
          rw [if_neg h1, if_neg h2, if_neg h3, if_neg h4, if_neg h5, if_neg h6, if_neg h7,
            if_neg h8]
          simp
        rw [hesc]
        simp [parseStrBody, h1, h2, ihf]

mutual
/-- Fuel needed by `parseValue` to parse the dump of a value. -/
def jsize : JsonValue → ℕ
  | .null => 1
  | .bool _ => 1
  | .num _ => 1
  | .str _ => 1
  | .arr xs => 1 + jsizeItems xs
  | .obj fsx => 1 + jsizeFields fsx

/-- Fuel needed by `parseArrItems` for a member list. -/
def jsizeItems : List JsonValue → ℕ
  | [] => 0
  | x :: xs => 1 + jsize x + jsizeItems xs

/-- Fuel needed by `parseObjItems` for a field list. -/
def jsizeFields : List (String × JsonValue) → ℕ
  | [] => 0
  | (_, v) :: fsx => 1 + jsize v + jsizeFields fsx
end

theorem one_le_jsize (v : JsonValue) : 1 ≤ jsize v := by
  cases v <;> simp [jsize]

set_option maxHeartbeats 1000000 in
theorem one_le_escapeChar_length (ea : Bool) (c : Char) :
    1 ≤ (escapeChar ea c).length := by
  unfold escapeChar
  split_ifs <;> simp [uEscape]

theorem data_length_le_flatten (ea : Bool) (data : List Char) :
    data.length ≤ ((data.map (escapeChar ea)).flatten).length := by
  induction data with
  | nil => simp
  | cons c cs ih =>
    simp only [List.map_cons, List.flatten_cons, List.length_append, List.length_cons]
    have := one_le_escapeChar_length ea c
    omega

theorem one_le_intChars_length (n : ℤ) : 1 ≤ (intChars n).length := by
  unfold intChars
  split
  · simp
  · cases h : natChars n.toNat with
    | nil => exact absurd h (natChars_ne_nil n.toNat)
    | cons c cs => simp [h]

mutual
theorem jsize_le_dumpLen : ∀ (ea : Bool) (ind depth : ℕ) (v : JsonValue),
    jsize v ≤ (dumpVal ea ind depth v).length
  | ea, ind, depth, .null => by simp [jsize, dumpVal]
  | ea, ind, depth, .bool b => by cases b <;> simp [jsize, dumpVal]
  | ea, ind, depth, .num n => by
    have := one_le_intChars_length n
    simpa [jsize, dumpVal] using this
  | ea, ind, depth, .str s => by
    simp [jsize, dumpVal, dumpStr]
  | ea, ind, depth, .arr [] => by simp [jsize, jsizeItems, dumpVal]
  | ea, ind, depth, .arr (x :: xs) => by
    have h := jsizeItems_le_dumpLen ea ind depth (x :: xs)
    simp only [jsize, dumpVal, List.length_cons, List.length_append, List.length_singleton]
    omega
  | ea, ind, depth, .obj [] => by simp [jsize, jsizeFields, dumpVal]
  | ea, ind, depth, .obj (f :: fsx) => by
    have h := jsizeFields_le_dumpLen ea ind depth (f :: fsx)
    simp only [jsize, dumpVal, List.length_cons, List.length_append, List.length_singleton]
    omega

theorem jsizeItems_le_dumpLen : ∀ (ea : Bool) (ind depth : ℕ) (l : List JsonValue),
    jsizeItems l ≤ (dumpArrItems ea ind depth l).length + 1
  | _, _, _, [] => by simp [jsizeItems]
  | ea, ind, depth, [x] => by
    have := jsize_le_dumpLen ea ind (depth + 1) x
    simp only [jsizeItems, dumpArrItems, List.length_append]
    omega
  | ea, ind, depth, x :: y :: xs => by
    have h1 := jsize_le_dumpLen ea ind (depth + 1) x
    have h2 := jsizeItems_le_dumpLen ea ind depth (y :: xs)
    simp only [jsizeItems] at h2
    simp only [jsizeItems, dumpArrItems, List.length_append, List.length_cons]
    omega

theorem jsizeFields_le_dumpLen : ∀ (ea : Bool) (ind depth : ℕ) (l : List (String × JsonValue)),
    jsizeFields l ≤ (dumpObjItems ea ind depth l).length + 1
  | _, _, _, [] => by simp [jsizeFields]
  | ea, ind, depth, [(k, v)] => by
    have := jsize_le_dumpLen ea ind (depth + 1) v
    simp only [jsizeFields, dumpObjItems, List.length_append, List.length_cons]
    omega
  | ea, ind, depth, (k, v) :: f :: fsx => by
    have h1 := jsize_le_dumpLen ea ind (depth + 1) v
    have h2 := jsizeFields_le_dumpLen ea ind depth (f :: fsx)
    rcases f with ⟨k2, v2⟩
    simp only [jsizeFields] at h2
    simp only [jsizeFields, dumpObjItems, List.length_append, List.length_cons]
    omega
end

/-- Distinct keys in an ordered mapping (Python `dict`s always satisfy this). -/
def nodupKeys : List (String × α) → Bool
  | [] => true
  | (k, _) :: rest => !(rest.any (fun kv => kv.1 = k)) && nodupKeys rest

/-- Inserting pairs with fresh, mutually distinct keys into a Python dict
appends them in order. -/
theorem dictUpdate_fresh (l d : List (String × α))
    (hnd : nodupKeys l = true) (hfresh : ∀ kv ∈ l, dictMem d kv.1 = false) :
    dictUpdate d l = d ++ l := by
  induction l generalizing d with
  | nil => simp [dictUpdate]
  | cons kv rest ih =>
    obtain ⟨k, v⟩ := kv
    simp only [nodupKeys, Bool.and_eq_true, Bool.not_eq_true'] at hnd
    have hk : dictMem d k = false := hfresh (k, v) (List.mem_cons_self _ _)
    have hstep : dictSet d k v = d ++ [(k, v)] := by
      unfold dictSet
      rw [if_neg]
      intro hc
      rw [show d.any (fun kv => kv.1 = k) = dictMem d k from rfl, hk] at hc
      cases hc
    show dictUpdate (dictSet d k v) rest = d ++ (k, v) :: rest
    have hfr : ∀ kv2 ∈ rest, dictMem (d ++ [(k, v)]) kv2.1 = false := by
      intro kv2 h2
      unfold dictMem
      simp only [List.any_append, Bool.or_eq_false_iff]
      refine ⟨hfresh kv2 (List.mem_cons_of_mem _ h2), ?_⟩
      simp only [List.any_cons, List.any_nil, Bool.or_false, decide_eq_false_iff_not]
      intro hkk
      have h3 := hnd.1
      rw [List.any_eq_false] at h3
      exact (by simpa using h3 kv2 h2 : ¬kv2.1 = k) hkk.symm
    rw [hstep, ih (d ++ [(k, v)]) hnd.2 hfr]
    simp

mutual
/-- Well-formed JSON values: every object has distinct keys (a Python `dict`
can never hold duplicates, so every value `write_json` receives is of this
shape). -/
def jwf : JsonValue → Bool
  | .arr xs => jwfItems xs
  | .obj fsx => nodupKeys fsx && jwfFields fsx
  | _ => true

/-- All members well-formed. -/
def jwfItems : List JsonValue → Bool
  | [] => true
  | x :: xs => jwf x && jwfItems xs

/-- All field values well-formed. -/
def jwfFields : List (String × JsonValue) → Bool
  | [] => true
  | (_, v) :: fsx => jwf v && jwfFields fsx
end

theorem digitChar_dispatch (d : ℕ) (hd : d < 10) :
    digitChar d ≠ 'n' ∧ digitChar d ≠ 't' ∧ digitChar d ≠ 'f' ∧ digitChar d ≠ '"' ∧
    digitChar d ≠ '-' ∧ (digitChar d).isDigit = true ∧ isWsChar (digitChar d) = false ∧
    digitChar d ≠ ']' ∧ digitChar d ≠ '\x7d' := by
  interval_cases d <;>
    exact ⟨by decide, by decide, by decide, by decide, by decide, by decide, by decide,
      by decide, by decide⟩

/-- The head of `natChars` is a decimal digit character. -/
theorem natChars_head (n : ℕ) : ∃ d t, d < 10 ∧ natChars n = digitChar d :: t := by
  unfold natChars
  split
  · exact ⟨0, [], by norm_num, rfl⟩
  · cases hrev : (Nat.digits 10 n).reverse with
    | nil =>
      rw [List.reverse_eq_nil_iff] at hrev
      exact absurd hrev (Nat.digits_ne_nil_iff_ne_zero.mpr (by omega))
    | cons d t =>
      refine ⟨d, t.map digitChar, ?_, ?_⟩
      · exact Nat.digits_lt_base (by norm_num)
          (List.mem_reverse.mp (hrev ▸ List.mem_cons_self d t))
      · rw [← List.map_reverse, hrev, List.map_cons]

/-- The first character of any pretty-printed value: never whitespace, never a
closing bracket or brace. -/
theorem dumpVal_head (ea : Bool) (ind depth : ℕ) (v : JsonValue) :
    ∃ c cs, dumpVal ea ind depth v = c :: cs ∧ isWsChar c = false ∧
      c ≠ ']' ∧ c ≠ '\x7d' := by
  cases v with
  | null => exact ⟨'n', _, rfl, by decide, by decide, by decide⟩
  | bool b =>
    cases b
    · exact ⟨'f', _, rfl, by decide, by decide, by decide⟩
    · exact ⟨'t', _, rfl, by decide, by decide, by decide⟩
  | num n =>
    show ∃ c cs, intChars n = c :: cs ∧ _
    unfold intChars
    split
    · exact ⟨'-', _, rfl, by decide, by decide, by decide⟩
    · obtain ⟨d, t, hd, ht⟩ := natChars_head n.toNat
      obtain ⟨_, _, _, _, _, _, hws, hbr, hbc⟩ := digitChar_dispatch d hd
      exact ⟨digitChar d, t, ht, hws, hbr, hbc⟩
  | str s => exact ⟨'"', _, rfl, by decide, by decide, by decide⟩
  | arr xs =>
    cases xs
    · exact ⟨'[', _, rfl, by decide, by decide, by decide⟩
    · exact ⟨'[', _, rfl, by decide, by decide, by decide⟩
  | obj fsx =>
    cases fsx
    · exact ⟨'\x7b', _, rfl, by decide, by decide, by decide⟩
    · exact ⟨'\x7b', _, rfl, by decide, by decide, by decide⟩

theorem skipWs_head_through (w : List Char) (c : Char) (t : List Char)
    (hw : wsOnly w) (hcnw : isWsChar c = false) :
    skipWs (w ++ c :: t) = c :: t := by
  rw [skipWs_append _ _ hw, skipWs_cons_not_ws _ _ hcnw]

theorem skipWs_through2 (w1 w2 : List Char) (c : Char) (t : List Char)
    (h1 : wsOnly w1) (h2 : wsOnly w2) (hcnw : isWsChar c = false) :
    skipWs (w1 ++ (w2 ++ c :: t)) = c :: t := by
  rw [skipWs_append _ _ h1, skipWs_append _ _ h2, skipWs_cons_not_ws _ _ hcnw]

theorem wsOnly_append (w1 w2 : List Char) (h1 : wsOnly w1) (h2 : wsOnly w2) :
    wsOnly (w1 ++ w2) := by
  intro c hc
  rcases List.mem_append.mp hc with hc | hc
  · exact h1 c hc
  · exact h2 c hc

theorem wsOnly_cons_newline (w : List Char) (hw : wsOnly w) : wsOnly ('\n' :: w) := by
  intro c hc
  rcases List.mem_cons.mp hc with rfl | hc
  · rfl
  · exact hw c hc

/-- The member lines of a non-empty array start with the indentation of the
first member followed by its dump. -/
theorem dumpArrItems_cons_eq (ea : Bool) (ind depth : ℕ) (x : JsonValue) (xs : List JsonValue) :
    ∃ T, dumpArrItems ea ind depth (x :: xs) =
      indentChars (ind * (depth + 1)) ++ dumpVal ea ind (depth + 1) x ++ T := by
  cases xs with
  | nil => exact ⟨[], by simp [dumpArrItems]⟩
  | cons y ys =>
    exact ⟨',' :: '\n' :: dumpArrItems ea ind depth (y :: ys),
      by simp [dumpArrItems, List.append_assoc]⟩

/-- The member lines of a non-empty object start with the indentation of the
first field followed by its quoted key. -/
theorem dumpObjItems_cons_eq (ea : Bool) (ind depth : ℕ) (k : String) (v : JsonValue)
    (fsx : List (String × JsonValue)) :
    ∃ T, dumpObjItems ea ind depth ((k, v) :: fsx) =
      indentChars (ind * (depth + 1)) ++ dumpStr ea k ++ T := by
  cases fsx with
  | nil =>
    exact ⟨':' :: ' ' :: dumpVal ea ind (depth + 1) v,
      by simp [dumpObjItems, List.append_assoc]⟩
  | cons f fsy =>
    exact ⟨':' :: ' ' :: (dumpVal ea ind (depth + 1) v ++
        ',' :: '\n' :: dumpObjItems ea ind depth (f :: fsy)),
      by simp [dumpObjItems, List.append_assoc]⟩

theorem skipWs_newline_cons (t : List Char) : skipWs ('\n' :: t) = skipWs t := rfl

/-- After whitespace, the member lines of a non-empty array start with the
first member's non-whitespace head character. -/
theorem skipWs_arrItems_head (ind depth : ℕ) (x : JsonValue) (xs : List JsonValue)
    (tail : List Char) :
    ∃ c t, skipWs (dumpArrItems false ind depth (x :: xs) ++ tail) = c :: t ∧
      isWsChar c = false ∧ c ≠ ']' ∧ c ≠ '\x7d' := by
  obtain ⟨T, hT⟩ := dumpArrItems_cons_eq false ind depth x xs
  obtain ⟨hc, hcs, hdx, hnw, hnb, hnb2⟩ := dumpVal_head false ind (depth + 1) x
  refine ⟨hc, hcs ++ (T ++ tail), ?_, hnw, hnb, hnb2⟩
  rw [hT, hdx]
  have heq : (indentChars (ind * (depth + 1)) ++ (hc :: hcs) ++ T) ++ tail =
      indentChars (ind * (depth + 1)) ++ (hc :: (hcs ++ (T ++ tail))) := by
    simp [List.append_assoc]
  rw [heq, skipWs_head_through _ _ _ (wsOnly_indentChars _) hnw]

/-- After whitespace, the field lines of a non-empty object start with the
quote of the first key. -/
theorem skipWs_objItems_head (ind depth : ℕ) (k : String) (v : JsonValue)
    (fsx : List (String × JsonValue)) (tail : List Char) :
    ∃ t, skipWs (dumpObjItems false ind depth ((k, v) :: fsx) ++ tail) = '"' :: t := by
  obtain ⟨T, hT⟩ := dumpObjItems_cons_eq false ind depth k v fsx
  refine ⟨((k.data.map (escapeChar false)).flatten ++ ['"']) ++ (T ++ tail), ?_⟩
  rw [hT]
  have heq : (indentChars (ind * (depth + 1)) ++ dumpStr false k ++ T) ++ tail =
      indentChars (ind * (depth + 1)) ++
        ('"' :: (((k.data.map (escapeChar false)).flatten ++ ['"']) ++ (T ++ tail))) := by
    simp [dumpStr, List.append_assoc]
  rw [heq, skipWs_head_through _ _ _ (wsOnly_indentChars _) (by decide)]

set_option maxHeartbeats 4000000 in
/-- The mutual round-trip induction: `parseValue` recovers exactly the value a
pretty-printed dump denotes (with any leading whitespace and any non-digit
continuation), and the member parsers recover the member lists of non-empty
containers. -/
theorem parse_dump_aux : ∀ fuel : ℕ,
    (∀ (ind depth : ℕ) (v : JsonValue) (w rest : List Char),
      wsOnly w → restOk rest → jwf v = true → jsize v ≤ fuel →
      parseValue fuel (w ++ dumpVal false ind depth v ++ rest) = some (v, rest)) ∧
    (∀ (ind depth : ℕ) (l : List JsonValue) (w rest : List Char),
      wsOnly w → l ≠ [] → jwfItems l = true → jsizeItems l ≤ fuel →
      parseArrItems fuel
        (w ++ (dumpArrItems false ind depth l ++
          '\n' :: (indentChars (ind * depth) ++ (']' :: rest)))) =
        some (l, rest)) ∧
    (∀ (ind depth : ℕ) (fsx : List (String × JsonValue)) (w rest : List Char),
      wsOnly w → fsx ≠ [] → jwfFields fsx = true → jsizeFields fsx ≤ fuel →
      parseObjItems fuel
        (w ++ (dumpObjItems false ind depth fsx ++
          '\n' :: (indentChars (ind * depth) ++ ('\x7d' :: rest)))) =
        some (fsx, rest)) := by
  intro fuel
  induction fuel with
  | zero =>
    refine ⟨?_, ?_, ?_⟩
    · intro ind depth v w rest _ _ _ hsz
      have := one_le_jsize v
      omega
    · intro ind depth l w rest _ hne _ hsz
      cases l with
      | nil => exact absurd rfl hne
      | cons x xs => simp [jsizeItems] at hsz
    · intro ind depth fsx w rest _ hne _ hsz
      cases fsx with
      | nil => exact absurd rfl hne
      | cons fkv fsy =>
        obtain ⟨k, v⟩ := fkv
        simp [jsizeFields] at hsz
  | succ f ih =>
    obtain ⟨ihv, ihA, ihO⟩ := ih
    refine ⟨?_, ?_, ?_⟩
    -- parseValue
    · intro ind depth v w rest hw hrest hwf hsz
      cases v with
      | null =>
        simp only [dumpVal, List.append_assoc, List.cons_append, List.nil_append]
        simp only [parseValue]
        rw [skipWs_head_through w 'n' _ hw (by decide)]
        simp
      | bool b =>
        cases b
        · simp only [dumpVal, cond_false, List.append_assoc, List.cons_append,
            List.nil_append]
          simp only [parseValue]
          rw [skipWs_head_through w 'f' _ hw (by decide)]
          simp
        · simp only [dumpVal, cond_true, List.append_assoc, List.cons_append,
            List.nil_append]
          simp only [parseValue]
          rw [skipWs_head_through w 't' _ hw (by decide)]
          simp
      | num n =>
        by_cases hneg : n < 0
        · have hd : dumpVal false ind depth (.num n) = '-' :: natChars n.natAbs := by
            simp [dumpVal, intChars, hneg]
          rw [hd]
          simp only [List.append_assoc, List.cons_append]
          simp only [parseValue]
          rw [skipWs_head_through w '-' _ hw (by decide)]
          have hpn := parseNat_natChars n.natAbs rest hrest
          simp [hpn]
          rw [abs_of_nonpos (le_of_lt hneg)]
          ring
        · obtain ⟨d, t, hdlt, ht⟩ := natChars_head n.toNat
          obtain ⟨e1, e2, e3, e4, e5, e6, e7, e8, e9⟩ := digitChar_dispatch d hdlt
          have hd : dumpVal false ind depth (.num n) = natChars n.toNat := by
            simp [dumpVal, intChars, hneg]
          rw [hd, ht]
          simp only [List.append_assoc, List.cons_append]
          simp only [parseValue]
          rw [skipWs_head_through w (digitChar d) _ hw e7]
          have hpn : parseNat (digitChar d :: (t ++ rest)) = some (n.toNat, rest) := by
            rw [← List.cons_append, ← ht]
            exact parseNat_natChars n.toNat rest hrest
          simp [e1, e2, e3, e4, e5, e6, hpn,
            Int.toNat_of_nonneg (by omega : (0 : ℤ) ≤ n)]
      | str s =>
        simp only [dumpVal, dumpStr, List.append_assoc, List.cons_append,
          List.singleton_append]
        simp only [parseValue]
        rw [skipWs_head_through w '"' _ hw (by decide)]
        have hb := data_length_le_flatten false s.data
        have hps := parseStrBody_dump s.data
          (((s.data.map (escapeChar false)).flatten ++ '"' :: rest).length + 1) rest
          (by simp only [List.length_append, List.length_cons]; omega)
        dsimp only [List.nil_append]
        rw [hps]
        simp
      | arr xs =>
        cases xs with
        | nil =>
          simp only [dumpVal, List.append_assoc, List.cons_append, List.nil_append]
          simp only [parseValue]
          rw [skipWs_head_through w '[' _ hw (by decide)]
          simp [skipWs_cons_not_ws ']' rest (by decide)]
        | cons x xs =>
          have hsz2 : jsizeItems (x :: xs) ≤ f := by
            simp only [jsize] at hsz
            omega
          have hwf2 : jwfItems (x :: xs) = true := by
            simpa [jwf] using hwf
          obtain ⟨hc, t2, hsk2, hnw, hnb, hnb2⟩ := skipWs_arrItems_head ind depth x xs
            ('\n' :: (indentChars (ind * depth) ++ (']' :: rest)))
          have hitems := ihA ind depth (x :: xs) ['\n'] rest
            (by intro c hc2; simp at hc2; subst hc2; rfl)
            (by simp) hwf2 hsz2
          simp only [List.singleton_append] at hitems
          simp only [dumpVal, List.append_assoc, List.cons_append, List.singleton_append]
          simp only [parseValue]
          rw [skipWs_head_through w '[' _ hw (by decide)]
          simp only [skipWs_newline_cons, hsk2]
          simp [hnb, hitems]
          rw [hsk2]
          simp [hnb]
      | obj fsx =>
        cases fsx with
        | nil =>
          simp only [dumpVal, List.append_assoc, List.cons_append, List.nil_append]
          simp only [parseValue]
          rw [skipWs_head_through w '\x7b' _ hw (by decide)]
          simp [skipWs_cons_not_ws '\x7d' rest (by decide), dictUpdate]
        | cons fkv fsy =>
          obtain ⟨k, v⟩ := fkv
          have hnd : nodupKeys ((k, v) :: fsy) = true := by
            simp only [jwf, Bool.and_eq_true] at hwf
            exact hwf.1
          have hwf2 : jwfFields ((k, v) :: fsy) = true := by
            simp only [jwf, Bool.and_eq_true] at hwf
            exact hwf.2
          have hsz2 : jsizeFields ((k, v) :: fsy) ≤ f := by
            simp only [jsize] at hsz
            omega
          obtain ⟨t2, hsk2⟩ := skipWs_objItems_head ind depth k v fsy
            ('\n' :: (indentChars (ind * depth) ++ ('\x7d' :: rest)))
          have hitems := ihO ind depth ((k, v) :: fsy) ['\n'] rest
            (by intro c hc2; simp at hc2; subst hc2; rfl)
            (by simp) hwf2 hsz2
          simp only [List.singleton_append] at hitems
          have hupd : dictUpdate ([] : List (String × JsonValue)) ((k, v) :: fsy) =
              (k, v) :: fsy := by
            rw [dictUpdate_fresh ((k, v) :: fsy) ([] : List (String × JsonValue)) hnd
              (fun kv2 _ => rfl)]
            simp
          simp only [dumpVal, List.append_assoc, List.cons_append, List.singleton_append]
          simp only [parseValue]
          rw [skipWs_head_through w '\x7b' _ hw (by decide)]
          simp only [skipWs_newline_cons, hsk2]
          simp [hitems, hupd]
          rw [hsk2]
          simp
    -- parseArrItems
    · intro ind depth l w rest hw hne hwf hsz
      cases l with
      | nil => exact absurd rfl hne
      | cons x xs =>
        have hwfx : jwf x = true := by
          simp only [jwfItems, Bool.and_eq_true] at hwf
          exact hwf.1
        cases xs with
        | nil =>
          have hval := ihv ind (depth + 1) x (w ++ indentChars (ind * (depth + 1)))
            ('\n' :: (indentChars (ind * depth) ++ (']' :: rest)))
            (wsOnly_append _ _ hw (wsOnly_indentChars _)) (by simp [restOk]) hwfx
            (by simp only [jsizeItems] at hsz; omega)
          simp only [List.append_assoc] at hval
          have hskr : skipWs ('\n' :: (indentChars (ind * depth) ++ (']' :: rest))) =
              ']' :: rest := by
            rw [skipWs_newline_cons]
            exact skipWs_head_through _ _ _ (wsOnly_indentChars _) (by decide)
          simp only [dumpArrItems, parseArrItems, List.append_assoc]
          simp only [hval, hskr]
        | cons y ys =>
          have hval := ihv ind (depth + 1) x (w ++ indentChars (ind * (depth + 1)))
            (',' :: ('\n' :: (dumpArrItems false ind depth (y :: ys) ++
              ('\n' :: (indentChars (ind * depth) ++ (']' :: rest))))))
            (wsOnly_append _ _ hw (wsOnly_indentChars _)) (by simp [restOk]) hwfx
            (by simp only [jsizeItems] at hsz; omega)
          simp only [List.append_assoc] at hval
          have hrec := ihA ind depth (y :: ys) ['\n'] rest
            (by intro c hc2; simp at hc2; subst hc2; rfl) (by simp)
            (by simp only [jwfItems, Bool.and_eq_true] at hwf ⊢; exact hwf.2)
            (by simp only [jsizeItems] at hsz ⊢; omega)
          simp only [List.singleton_append] at hrec
          simp only [dumpArrItems, parseArrItems, List.append_assoc, List.cons_append]
          simp only [hval]
          rw [skipWs_cons_not_ws ',' _ (by decide)]
          simp [hrec]
    -- parseObjItems
    · intro ind depth fsx w rest hw hne hwf hsz
      cases fsx with
      | nil => exact absurd rfl hne
      | cons fkv fsy =>
        obtain ⟨k, v⟩ := fkv
        have hwfv : jwf v = true := by
          simp only [jwfFields, Bool.and_eq_true] at hwf
          exact hwf.1
        cases fsy with
        | nil =>
          have hval := ihv ind (depth + 1) v [' ']
            ('\n' :: (indentChars (ind * depth) ++ ('\x7d' :: rest)))
            (by intro c hc2; simp at hc2; subst hc2; rfl) (by simp [restOk]) hwfv
            (by simp only [jsizeFields] at hsz; omega)
          simp only [List.singleton_append, List.cons_append, List.append_assoc, List.nil_append] at hval
          have hkp := parseStrBody_dump k.data
            (((k.data.map (escapeChar false)).flatten ++
              '"' :: (':' :: (' ' :: (dumpVal false ind (depth + 1) v ++
                ('\n' :: (indentChars (ind * depth) ++ ('\x7d' :: rest))))))).length + 1)
            (':' :: (' ' :: (dumpVal false ind (depth + 1) v ++
              ('\n' :: (indentChars (ind * depth) ++ ('\x7d' :: rest))))))
            (by
              have hb := data_length_le_flatten false k.data
              simp only [List.length_append, List.length_cons]
              omega)
          have hskr : skipWs ('\n' :: (indentChars (ind * depth) ++ ('\x7d' :: rest))) =
              '\x7d' :: rest := by
            rw [skipWs_newline_cons]
            exact skipWs_head_through _ _ _ (wsOnly_indentChars _) (by decide)
          simp only [dumpObjItems, parseObjItems, dumpStr, List.append_assoc,
            List.cons_append, List.singleton_append]
          rw [skipWs_through2 w (indentChars (ind * (depth + 1))) '"' _
            hw (wsOnly_indentChars _) (by decide)]
          simp only [List.nil_append, hkp]
          rw [skipWs_cons_not_ws ':' _ (by decide)]
          simp only [hval, hskr]
        | cons f2 fsz =>
          have hval := ihv ind (depth + 1) v [' ']
            (',' :: ('\n' :: (dumpObjItems false ind depth (f2 :: fsz) ++
              ('\n' :: (indentChars (ind * depth) ++ ('\x7d' :: rest))))))
            (by intro c hc2; simp at hc2; subst hc2; rfl) (by simp [restOk]) hwfv
            (by simp only [jsizeFields] at hsz; omega)
          simp only [List.singleton_append, List.cons_append, List.append_assoc, List.nil_append] at hval
          have hrec := ihO ind depth (f2 :: fsz) ['\n'] rest
            (by intro c hc2; simp at hc2; subst hc2; rfl) (by simp)
            (by simp only [jwfFields, Bool.and_eq_true] at hwf ⊢; exact hwf.2)
            (by
              obtain ⟨k2, v2⟩ := f2
              simp only [jsizeFields] at hsz ⊢
              omega)
          simp only [List.singleton_append] at hrec
          have hkp := parseStrBody_dump k.data
            (((k.data.map (escapeChar false)).flatten ++
              '"' :: (':' :: (' ' :: (dumpVal false ind (depth + 1) v ++
                (',' :: ('\n' :: (dumpObjItems false ind depth (f2 :: fsz) ++
                  ('\n' :: (indentChars (ind * depth) ++ ('\x7d' :: rest)))))))))).length + 1)
            (':' :: (' ' :: (dumpVal false ind (depth + 1) v ++
              (',' :: ('\n' :: (dumpObjItems false ind depth (f2 :: fsz) ++
                ('\n' :: (indentChars (ind * depth) ++ ('\x7d' :: rest)))))))))
            (by
              have hb := data_length_le_flatten false k.data
              simp only [List.length_append, List.length_cons]
              omega)
          simp only [dumpObjItems, parseObjItems, dumpStr, List.append_assoc,
            List.cons_append, List.singleton_append]
          rw [skipWs_through2 w (indentChars (ind * (depth + 1))) '"' _
            hw (wsOnly_indentChars _) (by decide)]
          simp only [List.nil_append, hkp]
          rw [skipWs_cons_not_ws ':' _ (by decide)]
          simp only [hval]
          rw [skipWs_cons_not_ws ',' _ (by decide)]
          simp [hrec]

/-- Parsing the pretty-printed text of a well-formed value recovers the value:
`json.loads` of `json.dumps(v, indent=ind, ensure_ascii=False)` is `v`. -/
theorem json_loads_dumps (ind : ℕ) (v : JsonValue) (hwf : jwf v = true) :
    json_loads (json_dumps false ind v) = some v := by
  have h := (parse_dump_aux ((dumpVal false ind 0 v).length + 1)).1 ind 0 v [] []
    (fun c hc => absurd hc (List.not_mem_nil c)) trivial hwf
    (by have := jsize_le_dumpLen false ind 0 v; omega)
  simp only [List.nil_append, List.append_nil] at h
  simp [json_loads, json_dumps, String.length, h, skipWs]

/-- `read_json` of `write_json` recovers any well-formed value. -/
theorem read_json_write_json (v : JsonValue) (hwf : jwf v = true) :
    read_json (write_json v) = some v := by
  simpa [read_json, write_json] using json_loads_dumps 4 v hwf

/-! ### Non-ASCII escaping of `write_json` (C6) -/

/-- Characters at or above `0x80` are copied verbatim when `ensure_ascii` is
false: none of the escape branches of `json.dump` applies to them. -/
theorem escapeChar_false_nonascii (c : Char) (h : 128 ≤ c.toNat) :
    escapeChar false c = [c] := by
  have h1 : ¬ c = '"' := fun e => by subst e; exact absurd h (by decide)
  have h2 : ¬ c = '\\' := fun e => by subst e; exact absurd h (by decide)
  have h3 : ¬ c = '\x08' := fun e => by subst e; exact absurd h (by decide)
  have h4 : ¬ c = '\x0c' := fun e => by subst e; exact absurd h (by decide)
  have h5 : ¬ c = '\n' := fun e => by subst e; exact absurd h (by decide)
  have h6 : ¬ c = '\r' := fun e => by subst e; exact absurd h (by decide)
  have h7 : ¬ c = '\t' := fun e => by subst e; exact absurd h (by decide)
  have h8 : ¬ c.toNat < 32 := by omega
  simp [escapeChar, h1, h2, h3, h4, h5, h6, h7, h8]

/-- C6 counterexample: the spec promises escaped and verbatim modes "selectable
per call", with some escaping-enabled call yielding ASCII-only output; but
`JarPatcher.write_json` (src/mods/patcher.py:161-173) takes no escaping
parameter — it always calls `json.dump(..., ensure_ascii=False)` — and its
output for a non-ASCII payload contains a character above `0x7F`, so no call
of the write operation produces the ASCII-only form. -/
theorem write_json_escaping_counterexample :
    write_json = (fun data => json_dumps false 4 data) ∧
    (∃ c ∈ (write_json (JsonValue.str "中")).data, ¬ c.toNat < 128) := by
  refine ⟨rfl, '中', ?_, by decide⟩
  decide

/-- C6 (amended): `write_json` writes with `ensure_ascii=False` on every call
(the flag is hard-coded, not selectable), so every non-ASCII character of a
string payload appears verbatim in the written text. -/
theorem write_json_nonascii_verbatim (s : String) (c : Char)
    (hc : c ∈ s.data) (hna : 128 ≤ c.toNat) :
    c ∈ (write_json (JsonValue.str s)).data := by
  have h1 : c ∈ (s.data.map (escapeChar false)).flatten := by
    rw [List.mem_flatten]
    refine ⟨escapeChar false c, List.mem_map_of_mem _ hc, ?_⟩
    rw [escapeChar_false_nonascii c hna]
    exact List.mem_singleton_self c
  simp [write_json, json_dumps, dumpVal, dumpStr, List.mem_append, h1]

/-- Concrete instance of the amended C6 theorem. -/
theorem write_json_nonascii_verbatim_witness :
    '中' ∈ String.data "中" ∧ 128 ≤ '中'.toNat ∧
    '中' ∈ (write_json (JsonValue.str "中")).data :=
  ⟨by decide, by decide,
    write_json_nonascii_verbatim "中" '中' (by decide) (by decide)⟩

/-! ### Legacy key-value "lang" format (C5)

`ProjectEPatcher_1122.modify_lang` (src/mods/projecte/projecte_1122.py:172,
252) reads and writes `zh_cn.lang` through `self.read_lang` / `self.write_lang`,
but those two methods are not defined anywhere under src/. The definitions
below are therefore modelled from the spec (§ lang format): each non-empty,
non-comment (`#`) line is `key=value` split at the first `=`; read produces an
ordered mapping with the last occurrence winning on duplicate keys; write
emits one `key=value` line per entry in iteration order, non-ASCII verbatim. -/

/-- Split a character stream into lines at `'\n'` (accumulator holds the
current line reversed). -/
def splitLinesAux : List Char → List Char → List (List Char)
  | [], acc => [acc.reverse]
  | c :: cs, acc =>
    if c = '\n' then acc.reverse :: splitLinesAux cs []
    else splitLinesAux cs (c :: acc)

/-- Split a character stream into lines. -/
def splitLines (cs : List Char) : List (List Char) := splitLinesAux cs []

/-- Join lines, terminating each with a newline. -/
def linesJoin (ls : List (List Char)) : List Char :=
  (ls.map (fun l => l ++ ['\n'])).flatten

/-- Split a line at its first `'='`. -/
def splitFirstEq : List Char → Option (List Char × List Char)
  | [] => none
  | c :: cs =>
    if c = '=' then some ([], cs)
    else
      match splitFirstEq cs with
      | some (k, v) => some (c :: k, v)
      | none => none

/-- Modelled from the spec: one line of `read_lang` — empty and `#`-comment
lines are skipped, a `key=value` line is stored with Python `dict` assignment
(last occurrence wins, first position kept). -/
def langLine (d : List (String × String)) (line : List Char) :
    List (String × String) :=
  if line = [] then d
  else if line.head? = some '#' then d
  else
    match splitFirstEq line with
    | some (k, v) => dictSet d ⟨k⟩ ⟨v⟩
    | none => d

/-- Modelled from the spec: `read_lang` of a file's text. -/
def read_lang (text : String) : List (String × String) :=
  (splitLines text.data).foldl langLine []

/-- The `key=value` line written for one entry. -/
def langLineOf (kv : String × String) : List Char :=
  kv.1.data ++ '=' :: kv.2.data

/-- Modelled from the spec: `write_lang` emits one `key=value` line per entry
in iteration order, characters verbatim. -/
def write_lang (d : List (String × String)) : String :=
  ⟨linesJoin (d.map langLineOf)⟩

/-- Well-formed lang mappings: distinct keys, no newline in keys or values, no
`=` in keys, no leading `#` in keys (exactly the entries representable in the
line format). -/
def wfLang (d : List (String × String)) : Bool :=
  nodupKeys d &&
  d.all (fun kv =>
    !kv.1.data.any (fun c => c = '\n' || c = '=') &&
    (kv.1.data.head? != some '#') &&
    !kv.2.data.any (fun c => c = '\n'))

theorem splitLinesAux_append (l : List Char) :
    ∀ (rest acc : List Char), '\n' ∉ l →
      splitLinesAux (l ++ '\n' :: rest) acc =
        (acc.reverse ++ l) :: splitLinesAux rest [] := by
  induction l with
  | nil =>
    intro rest acc _
    simp [splitLinesAux]
  | cons c l ih =>
    intro rest acc hl
    have hc : ¬ c = '\n' := fun e => hl (by rw [e]; exact List.mem_cons_self _ _)
    simp only [List.cons_append, splitLinesAux, if_neg hc, List.append_eq]
    rw [ih rest (c :: acc) (fun h => hl (List.mem_cons_of_mem _ h))]
    simp

theorem splitLines_linesJoin (ls : List (List Char))
    (h : ∀ l ∈ ls, '\n' ∉ l) :
    splitLines (linesJoin ls) = ls ++ [[]] := by
  induction ls with
  | nil => rfl
  | cons l ls ih =>
    have h1 : linesJoin (l :: ls) = l ++ '\n' :: linesJoin ls := by
      simp [linesJoin]
    rw [splitLines, h1, splitLinesAux_append l _ [] (h l (List.mem_cons_self _ _))]
    rw [List.reverse_nil, List.nil_append,
      show splitLinesAux (linesJoin ls) [] = splitLines (linesJoin ls) from rfl,
      ih (fun x hx => h x (List.mem_cons_of_mem _ hx))]
    rfl

theorem splitFirstEq_append (k : List Char) :
    ∀ v : List Char, '=' ∉ k → splitFirstEq (k ++ '=' :: v) = some (k, v) := by
  induction k with
  | nil =>
    intro v _
    simp [splitFirstEq]
  | cons c k ih =>
    intro v hk
    have hc : ¬ c = '=' := fun e => hk (by rw [e]; exact List.mem_cons_self _ _)
    simp only [List.cons_append, splitFirstEq, if_neg hc, List.append_eq]
    rw [ih v (fun h => hk (List.mem_cons_of_mem _ h))]

theorem langLine_of (d : List (String × String)) (k v : String)
    (hk : '=' ∉ k.data) (hh : ¬ k.data.head? = some '#') :
    langLine d (langLineOf (k, v)) = dictSet d k v := by
  have hne : ¬ (k.data ++ '=' :: v.data) = [] := by simp
  have hhd : ¬ (k.data ++ '=' :: v.data).head? = some '#' := by
    cases hkd : k.data with
    | nil => simp
    | cons c cs =>
      simp only [List.cons_append, List.head?_cons]
      rw [hkd] at hh
      simpa using hh
  unfold langLine langLineOf
  rw [if_neg hne, if_neg hhd, splitFirstEq_append k.data v.data hk]

theorem foldl_langLine (d : List (String × String)) :
    ∀ acc, (∀ kv ∈ d, '=' ∉ kv.1.data ∧ ¬ kv.1.data.head? = some '#') →
      (d.map langLineOf).foldl langLine acc = dictUpdate acc d := by
  induction d with
  | nil =>
    intro acc _
    rfl
  | cons kv d ih =>
    intro acc hp
    obtain ⟨k, v⟩ := kv
    simp only [List.map_cons, List.foldl_cons]
    rw [langLine_of acc k v (hp (k, v) (List.mem_cons_self _ _)).1
      (hp (k, v) (List.mem_cons_self _ _)).2]
    rw [ih (dictSet acc k v) (fun kv2 h2 => hp kv2 (List.mem_cons_of_mem _ h2))]
    rfl

/-- Round-trip of the lang store: reading back a written well-formed mapping
returns it unchanged (order and all). -/
theorem read_lang_write_lang (d : List (String × String))
    (h : wfLang d = true) : read_lang (write_lang d) = d := by
  simp only [wfLang, Bool.and_eq_true, List.all_eq_true] at h
  obtain ⟨hnd, hprop⟩ := h
  have hkey : ∀ kv ∈ d, '\n' ∉ kv.1.data ∧ '=' ∉ kv.1.data ∧
      ¬ kv.1.data.head? = some '#' ∧ '\n' ∉ kv.2.data := by
    intro kv hkv
    have h2 := hprop kv hkv
    simp only [Bool.and_eq_true, Bool.not_eq_true', List.any_eq_false,
      bne_iff_ne, ne_eq] at h2
    obtain ⟨⟨hke, hkh⟩, hve⟩ := h2
    refine ⟨fun hm => ?_, fun hm => ?_, hkh, fun hm => ?_⟩
    · have h3 := hke '\n' hm
      simp at h3
    · have h3 := hke '=' hm
      simp at h3
    · have h3 := hve '\n' hm
      simp at h3
  have hnl : ∀ l ∈ d.map langLineOf, '\n' ∉ l := by
    intro l hl
    rw [List.mem_map] at hl
    obtain ⟨kv, hkv, rfl⟩ := hl
    intro hm
    rcases List.mem_append.mp hm with hm | hm
    · exact (hkey kv hkv).1 hm
    · rcases List.mem_cons.mp hm with e | hm
      · cases e
      · exact (hkey kv hkv).2.2.2 hm
  unfold read_lang write_lang
  rw [show (String.mk (linesJoin (d.map langLineOf))).data =
    linesJoin (d.map langLineOf) from rfl]
  rw [splitLines_linesJoin _ hnl, List.foldl_append]
  rw [foldl_langLine d [] (fun kv hkv => ⟨(hkey kv hkv).2.1, (hkey kv hkv).2.2.1⟩)]
  rw [dictUpdate_fresh d [] hnd (fun kv _ => rfl)]
  rfl

/-! ### TOML store (C5)

`JarPatcher.read_toml` / `write_toml` (src/mods/patcher.py:175-200) delegate
to the external `toml` library (`toml.load` / `toml.dump`), whose code is not
part of this repository; the spec only requires table / array-of-tables
structure sufficient for the documents the patchers touch (mods.toml /
neoforge.mods.toml: top-level scalars, named tables, named table arrays of
scalar entries, as in src/mods/projecte/projecte_1201.py:222-232). The model
below embeds `toml.dump`'s output format and `toml.load`'s line-oriented
reading on that document class. -/

inductive TomlScalar
  | str (s : String)
  | num (n : ℤ)
  | bool (b : Bool)
deriving DecidableEq, Repr

/-- A TOML document of the shape the patchers use: top-level scalars, named
tables of scalars, and named arrays of tables of scalars (a Python `dict`
whose values are scalars, `dict`s, or lists of `dict`s). -/
structure TomlDoc where
  scalars : List (String × TomlScalar)
  tables : List (String × List (String × TomlScalar))
  arrays : List (String × List (List (String × TomlScalar)))
deriving DecidableEq, Repr

/-- Strip, on character lists (the `toml` reader strips each line). -/
def stripChars (l : List Char) : List Char :=
  ((l.dropWhile pyIsSpace).reverse.dropWhile pyIsSpace).reverse

/-- Bare TOML keys, written unquoted by `toml.dump`. -/
def tomlKeyOk (k : String) : Bool :=
  !k.data.isEmpty && k.data.all (fun c => c.isAlphanum || c = '_' || c = '-')

/-- Strings serialized without escape sequences: printable, no quote, no
backslash. -/
def tomlStrOk (s : String) : Bool :=
  s.data.all (fun c => 32 ≤ c.toNat && c ≠ '"' && c ≠ '\\')

/-- Serialization of one scalar by `toml.dump`. -/
def dumpTomlScalar : TomlScalar → List Char
  | .str s => '"' :: s.data ++ ['"']
  | .num n => intChars n
  | .bool true => ['t', 'r', 'u', 'e']
  | .bool false => ['f', 'a', 'l', 's', 'e']

/-- One `key = value` line of `toml.dump`. -/
def tomlEntryLine (kv : String × TomlScalar) : List Char :=
  kv.1.data ++ ' ' :: '=' :: ' ' :: dumpTomlScalar kv.2

/-- The lines `toml.dump` emits: top-level scalars first, then each `[table]`
section, then each `[[array]]` element section, entries in order. -/
def tomlLines (d : TomlDoc) : List (List Char) :=
  d.scalars.map tomlEntryLine ++
  (d.tables.map (fun nt =>
    ('[' :: nt.1.data ++ [']']) :: nt.2.map tomlEntryLine)).flatten ++
  (d.arrays.map (fun na =>
    (na.2.map (fun es =>
      ('[' :: '[' :: na.1.data ++ [']', ']']) :: es.map tomlEntryLine)).flatten)).flatten

/-- `JarPatcher.write_toml`: the text `toml.dump(data, f)` writes. -/
def write_toml (d : TomlDoc) : String :=
  ⟨linesJoin (tomlLines d)⟩

/-- Parse one scalar literal (string, boolean, or integer). -/
def parseTomlValue (cs : List Char) : Option TomlScalar :=
  if cs.head? = some '"' then
    if cs.tail.getLast? = some '"' then some (.str ⟨cs.tail.dropLast⟩) else none
  else if cs = ['t', 'r', 'u', 'e'] then some (.bool true)
  else if cs = ['f', 'a', 'l', 's', 'e'] then some (.bool false)
  else if cs.head? = some '-' then
    match parseNat cs.tail with
    | some (n, []) => some (.num (-(n : ℤ)))
    | _ => none
  else
    match parseNat cs with
    | some (n, []) => some (.num (n : ℤ))
    | _ => none

/-- The reader's pending section: `(isArray, name, entries so far)`. -/
def TomlCtx : Type := Option (Bool × String × List (String × TomlScalar))

/-- Close the pending section: a `[table]` is appended to the tables, a
`[[array]]` element is appended to its (possibly new) array. -/
def tomlFlush (doc : TomlDoc) : TomlCtx → TomlDoc
  | none => doc
  | some (false, name, es) => { doc with tables := doc.tables ++ [(name, es)] }
  | some (true, name, es) =>
    if dictMem doc.arrays name then
      { doc with arrays :=
        doc.arrays.map (fun p => if p.1 = name then (p.1, p.2 ++ [es]) else p) }
    else { doc with arrays := doc.arrays ++ [(name, [es])] }

/-- Process one line of `toml.load`: section headers open a new section
(closing the pending one), `key = value` lines extend the current section or
the top level; blank and comment lines are skipped. -/
def tomlLine (st : TomlDoc × TomlCtx) (line : List Char) : TomlDoc × TomlCtx :=
  let l := stripChars line
  if l = [] then st
  else if l.head? = some '#' then st
  else if l.head? = some '[' then
    if l.tail.head? = some '[' then
      let rest := l.tail.tail
      let name := rest.takeWhile (fun c => c ≠ ']')
      if rest = name ++ [']', ']'] then
        (tomlFlush st.1 st.2, some (true, ⟨name⟩, []))
      else st
    else
      let rest := l.tail
      let name := rest.takeWhile (fun c => c ≠ ']')
      if rest = name ++ [']'] then
        (tomlFlush st.1 st.2, some (false, ⟨name⟩, []))
      else st
  else
    match splitFirstEq l with
    | none => st
    | some (k, v) =>
      match parseTomlValue (stripChars v) with
      | none => st
      | some sc =>
        match st.2 with
        | none =>
          ({ st.1 with scalars := st.1.scalars ++ [(⟨stripChars k⟩, sc)] }, none)
        | some (b, name, es) =>
          (st.1, some (b, name, es ++ [(⟨stripChars k⟩, sc)]))

/-- `JarPatcher.read_toml`: `toml.load` over the file's lines. -/
def read_toml (text : String) : TomlDoc :=
  let st := (splitLines text.data).foldl tomlLine (⟨[], [], []⟩, none)
  tomlFlush st.1 st.2

/-- Well-formed table entries: distinct bare keys, representable strings. -/
def wfEntries (es : List (String × TomlScalar)) : Bool :=
  nodupKeys es && es.all (fun kv => tomlKeyOk kv.1 &&
    match kv.2 with
    | .str s => tomlStrOk s
    | _ => true)

/-- Well-formed documents: what a Python `dict` holding the modelled document
class, with representable keys and strings, can be. -/
def wfToml (d : TomlDoc) : Bool :=
  wfEntries d.scalars &&
  nodupKeys d.tables && nodupKeys d.arrays &&
  d.tables.all (fun nt => tomlKeyOk nt.1 && wfEntries nt.2 &&
    !dictMem d.scalars nt.1) &&
  d.arrays.all (fun na => tomlKeyOk na.1 && !na.2.isEmpty &&
    na.2.all wfEntries && !dictMem d.scalars na.1 && !dictMem d.tables na.1)

theorem mem_of_getLast?_eq (l : List Char) (a : Char) (h : l.getLast? = some a) :
    a ∈ l := by
  have h2 := List.dropLast_append_getLast? a (by rw [h]; rfl)
  rw [← h2]
  exact List.mem_append_right _ (List.mem_singleton_self a)

theorem dropWhile_false_of_all (p : Char → Bool) (l : List Char)
    (h : ∀ c ∈ l, p c = false) : l.dropWhile p = l := by
  cases l with
  | nil => rfl
  | cons c cs =>
    rw [List.dropWhile_cons_of_neg (by simp [h c (List.mem_cons_self _ _)])]

theorem stripChars_cons_space (l : List Char) :
    stripChars (' ' :: l) = stripChars l := by
  unfold stripChars
  rw [List.dropWhile_cons_of_pos (by decide)]

theorem stripChars_id (c : Char) (l : List Char) (hc : pyIsSpace c = false)
    (hl : ∀ d, (c :: l).getLast? = some d → pyIsSpace d = false) :
    stripChars (c :: l) = c :: l := by
  unfold stripChars
  rw [List.dropWhile_cons_of_neg (by simp [hc])]
  cases hrev : (c :: l).reverse with
  | nil => exact absurd hrev (by simp)
  | cons d t =>
    have hd : (c :: l).getLast? = some d := by
      rw [← List.head?_reverse, hrev]
      rfl
    rw [List.dropWhile_cons_of_neg (by simp [hl d hd]), ← hrev,
      List.reverse_reverse]

theorem stripChars_id_of_all (l : List Char) (hne : l ≠ [])
    (h : ∀ c ∈ l, pyIsSpace c = false) : stripChars l = l := by
  cases l with
  | nil => exact absurd rfl hne
  | cons c cs =>
    exact stripChars_id c cs (h c (List.mem_cons_self _ _))
      (fun d hd => h d (mem_of_getLast?_eq _ _ hd))

theorem stripChars_key (c : Char) (cs : List Char)
    (hall : ∀ x ∈ c :: cs, pyIsSpace x = false) :
    stripChars ((c :: cs) ++ [' ']) = c :: cs := by
  unfold stripChars
  rw [List.cons_append,
    List.dropWhile_cons_of_neg (by simp [hall c (List.mem_cons_self _ _)]),
    ← List.cons_append, List.reverse_append, List.reverse_singleton,
    List.singleton_append, List.dropWhile_cons_of_pos (by decide),
    dropWhile_false_of_all _ _ (fun x hx => hall x (List.mem_reverse.mp hx)),
    List.reverse_reverse]

theorem pyIsSpace_false_of_key (c : Char)
    (h : (c.isAlphanum || c = '_' || c = '-') = true) : pyIsSpace c = false := by
  by_contra hsp
  rw [Bool.not_eq_false] at hsp
  simp only [pyIsSpace, Bool.or_eq_true, decide_eq_true_eq] at hsp
  rcases hsp with ((((h1 | h1) | h1) | h1) | h1) | h1 <;>
    (subst h1; exact absurd h (by decide))

theorem keyChar_ne (c d : Char)
    (h : (c.isAlphanum || c = '_' || c = '-') = true)
    (hd : (d.isAlphanum || d = '_' || d = '-') = false) : ¬ c = d := by
  intro e
  subst e
  rw [h] at hd
  cases hd

theorem pyIsSpace_false_of_digit (c : Char) (h : c.isDigit = true) :
    pyIsSpace c = false := by
  by_contra hsp
  rw [Bool.not_eq_false] at hsp
  simp only [pyIsSpace, Bool.or_eq_true, decide_eq_true_eq] at hsp
  rcases hsp with ((((h1 | h1) | h1) | h1) | h1) | h1 <;>
    (subst h1; exact absurd h (by decide))

theorem digit_ne (c d : Char) (h : c.isDigit = true) (hd : d.isDigit = false) :
    ¬ c = d := by
  intro e
  subst e
  rw [h] at hd
  cases hd

theorem tomlKeyOk_chars (k : String) (hk : tomlKeyOk k = true) :
    k.data ≠ [] ∧ ∀ c ∈ k.data, (c.isAlphanum || c = '_' || c = '-') = true := by
  simp only [tomlKeyOk, Bool.and_eq_true, Bool.not_eq_true', List.all_eq_true,
    decide_eq_true_eq] at hk
  refine ⟨fun e => by rw [e] at hk; exact absurd hk.1 (by decide), ?_⟩
  intro c hc
  exact hk.2 c hc

theorem intChars_no_space (n : ℤ) : ∀ c ∈ intChars n, pyIsSpace c = false := by
  intro c hc
  unfold intChars at hc
  split at hc
  · rcases List.mem_cons.mp hc with rfl | hc
    · decide
    · exact pyIsSpace_false_of_digit c (natChars_all_digits _ c hc)
  · exact pyIsSpace_false_of_digit c (natChars_all_digits _ c hc)

theorem intChars_ne_nil (n : ℤ) : intChars n ≠ [] := by
  unfold intChars
  split
  · simp
  · exact natChars_ne_nil _

/-- Serialized scalars carry no surrounding whitespace. -/
theorem dumpTomlScalar_strip (sc : TomlScalar) :
    stripChars (dumpTomlScalar sc) = dumpTomlScalar sc := by
  cases sc with
  | str s =>
    have h1 : dumpTomlScalar (.str s) = '"' :: (s.data ++ ['"']) := by
      simp [dumpTomlScalar]
    rw [h1, stripChars_id '"' (s.data ++ ['"']) (by decide)]
    intro d hd
    rw [← List.cons_append, List.getLast?_concat] at hd
    injection hd with hd
    subst hd
    decide
  | num n =>
    exact stripChars_id_of_all _ (intChars_ne_nil n) (intChars_no_space n)
  | bool b => cases b <;> decide

/-- Reading back one serialized scalar. -/
theorem parseTomlValue_dump (sc : TomlScalar) :
    parseTomlValue (dumpTomlScalar sc) = some sc := by
  cases sc with
  | str s =>
    have h1 : dumpTomlScalar (.str s) = '"' :: (s.data ++ ['"']) := by
      simp [dumpTomlScalar]
    rw [h1, parseTomlValue, if_pos (by simp : ('"' :: (s.data ++ ['"'])).head? = some '"'),
      List.tail_cons, if_pos (List.getLast?_concat _), List.dropLast_concat]
  | num n =>
    by_cases hneg : n < 0
    · have h1 : dumpTomlScalar (.num n) = '-' :: natChars n.natAbs := by
        simp [dumpTomlScalar, intChars, if_pos hneg]
      have hpn : parseNat (natChars n.natAbs) = some (n.natAbs, []) := by
        have := parseNat_natChars n.natAbs [] trivial
        simpa using this
      rw [h1, parseTomlValue, if_neg (by simp), if_neg (by simp), if_neg (by simp),
        if_pos (by simp : ('-' :: natChars n.natAbs).head? = some '-'),
        List.tail_cons, hpn]
      simp only [Option.some.injEq]
      congr 1
      omega
    · obtain ⟨d, t, hd, hnc⟩ := natChars_head n.toNat
      have h1 : dumpTomlScalar (.num n) = natChars n.toNat := by
        simp [dumpTomlScalar, intChars, if_neg hneg]
      have hdig := digitChar_isDigit d hd
      have hpn : parseNat (natChars n.toNat) = some (n.toNat, []) := by
        have := parseNat_natChars n.toNat [] trivial
        simpa using this
      rw [h1, parseTomlValue, if_neg, if_neg, if_neg, if_neg, hpn]
      · simp only [Option.some.injEq]
        congr 1
        omega
      · rw [hnc]
        simp only [List.head?_cons, Option.some.injEq]
        exact digit_ne _ _ hdig (by decide)
      · rw [hnc]
        intro e
        injection e with e1
        exact digit_ne _ _ hdig (by decide) e1
      · rw [hnc]
        intro e
        injection e with e1
        exact digit_ne _ _ hdig (by decide) e1
      · rw [hnc]
        simp only [List.head?_cons, Option.some.injEq]
        exact digit_ne _ _ hdig (by decide)
  | bool b => cases b <;> decide

theorem stripChars_id_hl (l : List Char)
    (hh : ∀ c, l.head? = some c → pyIsSpace c = false)
    (hl : ∀ d, l.getLast? = some d → pyIsSpace d = false) :
    stripChars l = l := by
  cases l with
  | nil => rfl
  | cons c cs => exact stripChars_id c cs (hh c rfl) hl

theorem dumpTomlScalar_getLast (sc : TomlScalar) :
    ∃ dl, (dumpTomlScalar sc).getLast? = some dl ∧ pyIsSpace dl = false := by
  cases sc with
  | str s =>
    refine ⟨'"', ?_, by decide⟩
    show (('"' :: s.data) ++ ['"']).getLast? = some '"'
    exact List.getLast?_concat _
  | num n =>
    have hne : dumpTomlScalar (.num n) ≠ [] := intChars_ne_nil n
    refine ⟨(dumpTomlScalar (.num n)).getLast hne,
      List.getLast?_eq_getLast _ hne, ?_⟩
    exact intChars_no_space n _ (List.getLast_mem hne)
  | bool b => cases b <;> exact ⟨'e', by decide, by decide⟩

theorem takeWhile_append_stop (p : Char → Bool) (l1 : List Char) (c : Char)
    (l2 : List Char) (h1 : ∀ x ∈ l1, p x = true) (hc : p c = false) :
    (l1 ++ c :: l2).takeWhile p = l1 := by
  induction l1 with
  | nil =>
    simp only [List.nil_append]
    rw [List.takeWhile_cons_of_neg (by simp [hc])]
  | cons a l ih =>
    rw [List.cons_append,
      List.takeWhile_cons_of_pos (by simp [h1 a (List.mem_cons_self _ _)]),
      ih (fun x hx => h1 x (List.mem_cons_of_mem _ hx))]

theorem tomlEntryLine_strip (k : String) (sc : TomlScalar)
    (hk : tomlKeyOk k = true) :
    stripChars (tomlEntryLine (k, sc)) = tomlEntryLine (k, sc) := by
  obtain ⟨hne, hall⟩ := tomlKeyOk_chars k hk
  obtain ⟨dl, hdl, hdlns⟩ := dumpTomlScalar_getLast sc
  have hdne : dumpTomlScalar sc ≠ [] := by
    intro e
    rw [e] at hdl
    cases hdl
  obtain ⟨d0, t0, hd0⟩ : ∃ d0 t0, dumpTomlScalar sc = d0 :: t0 := by
    cases hcase : dumpTomlScalar sc with
    | nil => exact absurd hcase hdne
    | cons a b => exact ⟨a, b, rfl⟩
  apply stripChars_id_hl
  · intro c hc
    cases hkd : k.data with
    | nil => exact absurd hkd hne
    | cons c0 cs0 =>
      unfold tomlEntryLine at hc
      rw [hkd] at hc
      simp only [List.cons_append, List.head?_cons, Option.some.injEq] at hc
      subst hc
      exact pyIsSpace_false_of_key c0 (hall c0 (by rw [hkd]; exact List.mem_cons_self _ _))
  · intro d hd
    have h2 : (' ' :: '=' :: ' ' :: dumpTomlScalar sc).getLast? = some dl := by
      rw [hd0] at hdl ⊢
      rw [List.getLast?_cons_cons, List.getLast?_cons_cons, List.getLast?_cons_cons]
      exact hdl
    have h3 : (tomlEntryLine (k, sc)).getLast? = some dl := by
      unfold tomlEntryLine
      have := @List.mem_getLast?_append_of_mem_getLast? Char k.data
        (' ' :: '=' :: ' ' :: dumpTomlScalar sc) dl (by rw [h2]; rfl)
      rwa [Option.mem_def] at this
    rw [h3] at hd
    injection hd with hd
    subst hd
    exact hdlns

/-- Processing one serialized `key = value` line: top level appends a scalar,
an open section appends an entry. -/
theorem tomlLine_entry (st : TomlDoc × TomlCtx) (k : String) (sc : TomlScalar)
    (hk : tomlKeyOk k = true) :
    tomlLine st (tomlEntryLine (k, sc)) =
      match st.2 with
      | none => ({ st.1 with scalars := st.1.scalars ++ [(k, sc)] }, none)
      | some (b, nm, es) => (st.1, some (b, nm, es ++ [(k, sc)])) := by
  obtain ⟨hne, hall⟩ := tomlKeyOk_chars k hk
  obtain ⟨c0, cs0, hkd⟩ : ∃ c0 cs0, k.data = c0 :: cs0 := by
    cases hcase : k.data with
    | nil => exact absurd hcase hne
    | cons a b => exact ⟨a, b, rfl⟩
  have hc0 := hall c0 (by rw [hkd]; exact List.mem_cons_self _ _)
  have hline : tomlEntryLine (k, sc) =
      c0 :: (cs0 ++ ' ' :: '=' :: ' ' :: dumpTomlScalar sc) := by
    unfold tomlEntryLine
    rw [hkd, List.cons_append]
  have hsp : splitFirstEq (tomlEntryLine (k, sc)) =
      some (k.data ++ [' '], ' ' :: dumpTomlScalar sc) := by
    have hsh : tomlEntryLine (k, sc) =
        (k.data ++ [' ']) ++ '=' :: (' ' :: dumpTomlScalar sc) := by
      unfold tomlEntryLine
      simp [List.append_assoc]
    rw [hsh]
    apply splitFirstEq_append
    intro hm
    rcases List.mem_append.mp hm with hm | hm
    · exact keyChar_ne '=' '=' (hall '=' hm) (by decide) rfl
    · rcases List.mem_cons.mp hm with e | hm
      · cases e
      · cases hm
  have hkstr : stripChars (k.data ++ [' ']) = k.data := by
    rw [hkd]
    exact stripChars_key c0 cs0
      (fun x hx => pyIsSpace_false_of_key x (hall x (by rw [hkd]; exact hx)))
  have hvstr : stripChars (' ' :: dumpTomlScalar sc) = dumpTomlScalar sc := by
    rw [stripChars_cons_space]
    exact dumpTomlScalar_strip sc
  simp only [tomlLine, tomlEntryLine_strip k sc hk]
  rw [if_neg (by rw [hline]; simp), if_neg ?hcomment, if_neg ?hbracket]
  case hcomment =>
    rw [hline]
    simp only [List.head?_cons, Option.some.injEq]
    exact keyChar_ne c0 '#' hc0 (by decide)
  case hbracket =>
    rw [hline]
    simp only [List.head?_cons, Option.some.injEq]
    exact keyChar_ne c0 '[' hc0 (by decide)
  rw [hsp]
  dsimp only
  rw [hvstr, parseTomlValue_dump sc, hkstr]

/-- Processing a `[name]` header closes the pending section and opens the
table. -/
theorem tomlLine_table_header (st : TomlDoc × TomlCtx) (name : String)
    (hk : tomlKeyOk name = true) :
    tomlLine st ('[' :: name.data ++ [']']) =
      (tomlFlush st.1 st.2, some (false, name, [])) := by
  obtain ⟨hne, hall⟩ := tomlKeyOk_chars name hk
  obtain ⟨c0, cs0, hkd⟩ : ∃ c0 cs0, name.data = c0 :: cs0 := by
    cases hcase : name.data with
    | nil => exact absurd hcase hne
    | cons a b => exact ⟨a, b, rfl⟩
  have hc0 := hall c0 (by rw [hkd]; exact List.mem_cons_self _ _)
  have hstrip : stripChars ('[' :: name.data ++ [']']) =
      '[' :: name.data ++ [']'] := by
    apply stripChars_id_hl
    · intro c hc
      simp only [List.cons_append, List.head?_cons, Option.some.injEq] at hc
      subst hc
      decide
    · intro d hd
      rw [List.getLast?_concat] at hd
      injection hd with hd
      subst hd
      decide
  have htw : (name.data ++ [']']).takeWhile (fun c => c ≠ ']') = name.data := by
    apply takeWhile_append_stop
    · intro x hx
      simp only [ne_eq, decide_eq_true_eq]
      exact keyChar_ne x ']' (hall x hx) (by decide)
    · simp
  simp only [tomlLine, hstrip]
  rw [if_neg (by simp), if_neg ?hcomment, if_pos ?hbr1, if_neg ?hbr2]
  case hcomment =>
    simp only [List.cons_append, List.head?_cons, Option.some.injEq]
    decide
  case hbr1 =>
    simp only [List.cons_append, List.head?_cons]
  case hbr2 =>
    simp only [List.cons_append, List.tail_cons]
    rw [hkd]
    simp only [List.cons_append, List.head?_cons, Option.some.injEq]
    exact keyChar_ne c0 '[' hc0 (by decide)
  simp only [List.cons_append, List.tail_cons, htw, if_pos rfl]
  simp

/-- Processing a `[[name]]` header closes the pending section and opens a new
element of the table array. -/
theorem tomlLine_array_header (st : TomlDoc × TomlCtx) (name : String)
    (hk : tomlKeyOk name = true) :
    tomlLine st ('[' :: '[' :: name.data ++ [']', ']']) =
      (tomlFlush st.1 st.2, some (true, name, [])) := by
  obtain ⟨hne, hall⟩ := tomlKeyOk_chars name hk
  have hstrip : stripChars ('[' :: '[' :: name.data ++ [']', ']']) =
      '[' :: '[' :: name.data ++ [']', ']'] := by
    apply stripChars_id_hl
    · intro c hc
      simp only [List.cons_append, List.head?_cons, Option.some.injEq] at hc
      subst hc
      decide
    · intro d hd
      rw [show '[' :: '[' :: name.data ++ [']', ']'] =
        ('[' :: '[' :: name.data ++ [']']) ++ [']'] from by simp,
        List.getLast?_concat] at hd
      injection hd with hd
      subst hd
      decide
  have htw : (name.data ++ [']', ']']).takeWhile (fun c => c ≠ ']') = name.data := by
    apply takeWhile_append_stop
    · intro x hx
      simp only [ne_eq, decide_eq_true_eq]
      exact keyChar_ne x ']' (hall x hx) (by decide)
    · simp
  simp only [tomlLine, hstrip]
  rw [if_neg (by simp), if_neg ?hcomment, if_pos ?hbr1, if_pos ?hbr2]
  case hcomment =>
    simp only [List.cons_append, List.head?_cons, Option.some.injEq]
    decide
  case hbr1 =>
    simp only [List.cons_append, List.head?_cons]
  case hbr2 =>
    simp only [List.cons_append, List.tail_cons, List.head?_cons]
  simp only [List.cons_append, List.tail_cons, htw, if_pos rfl]
  simp

/-- One serialized section: header plus entry lines. -/
def secLines (s : Bool × String × List (String × TomlScalar)) : List (List Char) :=
  (if s.1 then '[' :: '[' :: s.2.1.data ++ [']', ']'] else '[' :: s.2.1.data ++ [']']) ::
    s.2.2.map tomlEntryLine

/-- The effect of one whole section on the reader state. -/
def secStep (st : TomlDoc × TomlCtx)
    (s : Bool × String × List (String × TomlScalar)) : TomlDoc × TomlCtx :=
  (tomlFlush st.1 st.2, some s)

/-- The sections of a document, in the order `toml.dump` writes them. -/
def secsOf (d : TomlDoc) : List (Bool × String × List (String × TomlScalar)) :=
  d.tables.map (fun nt => (false, nt.1, nt.2)) ++
  (d.arrays.map (fun na => na.2.map (fun es => (true, na.1, es)))).flatten

/-- Flushing a run of already-read sections into a document. -/
def flushAll (doc : TomlDoc)
    (secs : List (Bool × String × List (String × TomlScalar))) : TomlDoc :=
  secs.foldl (fun d s => tomlFlush d (some s)) doc

/-- Keys of a section are bare keys. -/
def wfSec (s : Bool × String × List (String × TomlScalar)) : Bool :=
  tomlKeyOk s.2.1 && s.2.2.all (fun kv => tomlKeyOk kv.1)

theorem foldl_entry_top (es : List (String × TomlScalar)) :
    ∀ doc : TomlDoc, (∀ kv ∈ es, tomlKeyOk kv.1 = true) →
      (es.map tomlEntryLine).foldl tomlLine (doc, none) =
        ({ doc with scalars := doc.scalars ++ es }, none) := by
  induction es with
  | nil =>
    intro doc _
    simp
  | cons kv es ih =>
    intro doc hp
    obtain ⟨k, sc⟩ := kv
    simp only [List.map_cons, List.foldl_cons]
    rw [tomlLine_entry (doc, none) k sc (hp (k, sc) (List.mem_cons_self _ _))]
    dsimp only
    rw [ih _ (fun kv2 h2 => hp kv2 (List.mem_cons_of_mem _ h2))]
    simp

theorem foldl_entry_sec (es : List (String × TomlScalar)) :
    ∀ (doc : TomlDoc) (b : Bool) (nm : String) (es0 : List (String × TomlScalar)),
      (∀ kv ∈ es, tomlKeyOk kv.1 = true) →
      (es.map tomlEntryLine).foldl tomlLine (doc, some (b, nm, es0)) =
        (doc, some (b, nm, es0 ++ es)) := by
  induction es with
  | nil =>
    intro doc b nm es0 _
    simp
  | cons kv es ih =>
    intro doc b nm es0 hp
    obtain ⟨k, sc⟩ := kv
    simp only [List.map_cons, List.foldl_cons]
    rw [tomlLine_entry (doc, some (b, nm, es0)) k sc (hp (k, sc) (List.mem_cons_self _ _))]
    dsimp only
    rw [ih _ _ _ _ (fun kv2 h2 => hp kv2 (List.mem_cons_of_mem _ h2))]
    simp

theorem foldl_secLines (s : Bool × String × List (String × TomlScalar))
    (st : TomlDoc × TomlCtx) (hwf : wfSec s = true) :
    (secLines s).foldl tomlLine st = secStep st s := by
  obtain ⟨b, nm, es⟩ := s
  simp only [wfSec, Bool.and_eq_true, List.all_eq_true] at hwf
  obtain ⟨hk, hes⟩ := hwf
  obtain ⟨doc, ctx⟩ := st
  simp only [secLines, List.foldl_cons]
  cases b with
  | true =>
    rw [show (if (true, nm, es).1 then '[' :: '[' :: (true, nm, es).2.1.data ++ [']', ']']
        else '[' :: (true, nm, es).2.1.data ++ [']']) =
      '[' :: '[' :: nm.data ++ [']', ']'] from rfl]
    rw [tomlLine_array_header (doc, ctx) nm hk]
    rw [foldl_entry_sec es (tomlFlush doc ctx) true nm []
      (fun kv h2 => hes kv h2)]
    simp [secStep]
  | false =>
    rw [show (if (false, nm, es).1 then '[' :: '[' :: (false, nm, es).2.1.data ++ [']', ']']
        else '[' :: (false, nm, es).2.1.data ++ [']']) =
      '[' :: nm.data ++ [']'] from rfl]
    rw [tomlLine_table_header (doc, ctx) nm hk]
    rw [foldl_entry_sec es (tomlFlush doc ctx) false nm []
      (fun kv h2 => hes kv h2)]
    simp [secStep]

theorem foldl_sections (secs : List (Bool × String × List (String × TomlScalar))) :
    ∀ st : TomlDoc × TomlCtx, (∀ s ∈ secs, wfSec s = true) →
      ((secs.map secLines).flatten).foldl tomlLine st = secs.foldl secStep st := by
  induction secs with
  | nil =>
    intro st _
    rfl
  | cons s secs ih =>
    intro st hp
    simp only [List.map_cons, List.flatten_cons, List.foldl_append, List.foldl_cons]
    rw [foldl_secLines s st (hp s (List.mem_cons_self _ _)),
      ih _ (fun s2 h2 => hp s2 (List.mem_cons_of_mem _ h2))]

theorem flushAll_of_foldl_secStep (secs : List (Bool × String × List (String × TomlScalar))) :
    ∀ (doc : TomlDoc) (ctx : TomlCtx),
      tomlFlush (secs.foldl secStep (doc, ctx)).1 (secs.foldl secStep (doc, ctx)).2 =
        flushAll (tomlFlush doc ctx) secs := by
  induction secs with
  | nil =>
    intro doc ctx
    rfl
  | cons s secs ih =>
    intro doc ctx
    simp only [List.foldl_cons]
    rw [show secStep (doc, ctx) s = (tomlFlush doc ctx, some s) from rfl, ih]
    rfl

theorem flushAll_tables (tbls : List (String × List (String × TomlScalar))) :
    ∀ doc : TomlDoc,
      flushAll doc (tbls.map (fun nt => (false, nt.1, nt.2))) =
        { doc with tables := doc.tables ++ tbls } := by
  induction tbls with
  | nil =>
    intro doc
    simp [flushAll]
  | cons nt tbls ih =>
    intro doc
    simp only [List.map_cons, flushAll, List.foldl_cons]
    rw [show tomlFlush doc (some (false, nt.1, nt.2)) =
      { doc with tables := doc.tables ++ [(nt.1, nt.2)] } from rfl]
    rw [show (List.foldl (fun d s => tomlFlush d (some s))
      { doc with tables := doc.tables ++ [(nt.1, nt.2)] }
      (tbls.map (fun nt => (false, nt.1, nt.2)))) =
      flushAll { doc with tables := doc.tables ++ [(nt.1, nt.2)] }
        (tbls.map (fun nt => (false, nt.1, nt.2))) from rfl]
    rw [ih]
    simp

theorem arrays_map_fresh (acc : List (String × List (List (String × TomlScalar))))
    (name : String) (es : List (String × TomlScalar))
    (h : dictMem acc name = false) :
    acc.map (fun p => if p.1 = name then (p.1, p.2 ++ [es]) else p) = acc := by
  induction acc with
  | nil => rfl
  | cons p acc ih =>
    simp only [dictMem, List.any_cons, Bool.or_eq_false_iff,
      decide_eq_false_iff_not] at h
    simp only [List.map_cons, if_neg h.1]
    rw [ih h.2]

theorem flushAll_cons (doc : TomlDoc)
    (s : Bool × String × List (String × TomlScalar))
    (secs : List (Bool × String × List (String × TomlScalar))) :
    flushAll doc (s :: secs) = flushAll (tomlFlush doc (some s)) secs := rfl

theorem flushAll_elems (elems : List (List (String × TomlScalar))) :
    ∀ (doc : TomlDoc) (name : String) (part : List (List (String × TomlScalar)))
      (acc : List (String × List (List (String × TomlScalar)))),
      doc.arrays = acc ++ [(name, part)] → dictMem acc name = false →
      flushAll doc (elems.map (fun es => (true, name, es))) =
        { doc with arrays := acc ++ [(name, part ++ elems)] } := by
  induction elems with
  | nil =>
    intro doc name part acc hacc hfresh
    simp only [List.map_nil, flushAll, List.foldl_nil, List.append_nil, ← hacc]
  | cons e elems ih =>
    intro doc name part acc hacc hfresh
    simp only [List.map_cons, flushAll_cons]
    have hmem : dictMem doc.arrays name = true := by
      rw [hacc]
      simp [dictMem]
    have hflush : tomlFlush doc (some (true, name, e)) =
        { doc with arrays := acc ++ [(name, part ++ [e])] } := by
      simp only [tomlFlush]
      rw [if_pos hmem, hacc, List.map_append, arrays_map_fresh acc name e hfresh]
      simp
    rw [hflush, ih _ name (part ++ [e]) acc rfl hfresh]
    simp

theorem flushAll_array (name : String) (elems : List (List (String × TomlScalar)))
    (doc : TomlDoc) (hfresh : dictMem doc.arrays name = false) (hne : elems ≠ []) :
    flushAll doc (elems.map (fun es => (true, name, es))) =
      { doc with arrays := doc.arrays ++ [(name, elems)] } := by
  cases elems with
  | nil => exact absurd rfl hne
  | cons e elems =>
    simp only [List.map_cons, flushAll_cons]
    have hflush : tomlFlush doc (some (true, name, e)) =
        { doc with arrays := doc.arrays ++ [(name, [e])] } := by
      simp only [tomlFlush]
      rw [if_neg (by rw [hfresh]; simp)]
    rw [hflush, flushAll_elems elems _ name [e] doc.arrays rfl hfresh]
    simp

theorem flushAll_arrays (arrs : List (String × List (List (String × TomlScalar)))) :
    ∀ doc : TomlDoc, nodupKeys arrs = true →
      (∀ na ∈ arrs, na.2 ≠ [] ∧ dictMem doc.arrays na.1 = false) →
      flushAll doc
        ((arrs.map (fun na => na.2.map (fun es => (true, na.1, es)))).flatten) =
        { doc with arrays := doc.arrays ++ arrs } := by
  induction arrs with
  | nil =>
    intro doc _ _
    simp [flushAll]
  | cons na arrs ih =>
    intro doc hnd hp
    obtain ⟨name, elems⟩ := na
    simp only [nodupKeys, Bool.and_eq_true, Bool.not_eq_true'] at hnd
    simp only [List.map_cons, List.flatten_cons]
    rw [show flushAll doc
        ((elems.map (fun es => (true, name, es))) ++
          (arrs.map (fun na => na.2.map (fun es => (true, na.1, es)))).flatten) =
      flushAll (flushAll doc (elems.map (fun es => (true, name, es))))
        ((arrs.map (fun na => na.2.map (fun es => (true, na.1, es)))).flatten) from
      List.foldl_append _ _ _ _]
    rw [flushAll_array name elems doc
      ((hp (name, elems) (List.mem_cons_self _ _)).2)
      ((hp (name, elems) (List.mem_cons_self _ _)).1)]
    rw [ih _ hnd.2 ?fresh]
    · simp
    case fresh =>
      intro nb hb
      refine ⟨(hp nb (List.mem_cons_of_mem _ hb)).1, ?_⟩
      simp only [dictMem, List.any_append, Bool.or_eq_false_iff]
      refine ⟨(hp nb (List.mem_cons_of_mem _ hb)).2, ?_⟩
      simp only [List.any_cons, List.any_nil, Bool.or_false,
        decide_eq_false_iff_not]
      intro he
      rw [List.any_eq_false] at hnd
      have h4 := hnd.1 nb hb
      simp only [decide_eq_true_eq] at h4
      exact h4 he.symm

theorem secLines_tables (tbls : List (String × List (String × TomlScalar))) :
    (tbls.map (fun nt => (false, nt.1, nt.2))).map secLines =
      tbls.map (fun nt => ('[' :: nt.1.data ++ [']']) :: nt.2.map tomlEntryLine) := by
  induction tbls with
  | nil => rfl
  | cons nt tbls ih =>
    simp only [List.map_cons, ih]
    rfl

theorem secLines_arrays (arrs : List (String × List (List (String × TomlScalar)))) :
    ((arrs.map (fun na => na.2.map (fun es => (true, na.1, es)))).flatten).map secLines =
      (arrs.map (fun na => na.2.map (fun es =>
        ('[' :: '[' :: na.1.data ++ [']', ']']) :: es.map tomlEntryLine))).flatten := by
  induction arrs with
  | nil => rfl
  | cons na arrs ih =>
    simp only [List.map_cons, List.flatten_cons, List.map_append, ih]
    congr 1
    rw [List.map_map]
    rfl

theorem tomlLines_reorg (d : TomlDoc) :
    tomlLines d = d.scalars.map tomlEntryLine ++ ((secsOf d).map secLines).flatten := by
  unfold tomlLines secsOf
  rw [List.map_append, List.flatten_append, secLines_tables, secLines_arrays,
    List.flatten_flatten, List.map_map, ← List.append_assoc]
  rfl

theorem dumpTomlScalar_no_newline (sc : TomlScalar)
    (hsc : (match sc with | .str s => tomlStrOk s | _ => true) = true) :
    '\n' ∉ dumpTomlScalar sc := by
  cases sc with
  | str s =>
    simp only [tomlStrOk, List.all_eq_true, Bool.and_eq_true,
      decide_eq_true_eq] at hsc
    intro hm
    rcases List.mem_cons.mp hm with e | hm
    · cases e
    · rcases List.mem_append.mp hm with hm | hm
      · have h2 := (hsc '\n' hm).1.1
        simp only [decide_eq_true_eq] at h2
        exact absurd h2 (by decide)
      · rcases List.mem_cons.mp hm with e | hm
        · cases e
        · cases hm
  | num n =>
    intro hm
    rw [show dumpTomlScalar (.num n) = intChars n from rfl] at hm
    unfold intChars at hm
    split at hm
    · rcases List.mem_cons.mp hm with e | hm
      · cases e
      · exact absurd (natChars_all_digits _ _ hm) (by decide)
    · exact absurd (natChars_all_digits _ _ hm) (by decide)
  | bool b => cases b <;> decide

theorem tomlEntryLine_no_newline (k : String) (sc : TomlScalar)
    (hk : tomlKeyOk k = true)
    (hsc : (match sc with | .str s => tomlStrOk s | _ => true) = true) :
    '\n' ∉ tomlEntryLine (k, sc) := by
  obtain ⟨_, hall⟩ := tomlKeyOk_chars k hk
  intro hm
  unfold tomlEntryLine at hm
  rcases List.mem_append.mp hm with hm | hm
  · exact keyChar_ne '\n' '\n' (hall '\n' hm) (by decide) rfl
  · rcases List.mem_cons.mp hm with e | hm
    · cases e
    · rcases List.mem_cons.mp hm with e | hm
      · cases e
      · rcases List.mem_cons.mp hm with e | hm
        · cases e
        · exact dumpTomlScalar_no_newline sc hsc hm

theorem tomlLines_no_newline (d : TomlDoc) (h : wfToml d = true) :
    ∀ l ∈ tomlLines d, '\n' ∉ l := by
  simp only [wfToml, Bool.and_eq_true, List.all_eq_true] at h
  obtain ⟨⟨⟨⟨hsc, hndt⟩, hnda⟩, ht⟩, ha⟩ := h
  simp only [wfEntries, Bool.and_eq_true, List.all_eq_true] at hsc
  intro l hl
  unfold tomlLines at hl
  rcases List.mem_append.mp hl with hl | hl
  rcases List.mem_append.mp hl with hl | hl
  · rw [List.mem_map] at hl
    obtain ⟨kv, hkv, rfl⟩ := hl
    have h2 := hsc.2 kv hkv
    simp only [Bool.and_eq_true] at h2
    exact tomlEntryLine_no_newline kv.1 kv.2 h2.1 h2.2
  · rw [List.mem_flatten] at hl
    obtain ⟨ls, hls, hl⟩ := hl
    rw [List.mem_map] at hls
    obtain ⟨nt, hnt, rfl⟩ := hls
    have h2 := ht nt hnt
    simp only [Bool.and_eq_true] at h2
    obtain ⟨⟨hko, hwe⟩, _⟩ := h2
    simp only [wfEntries, Bool.and_eq_true, List.all_eq_true] at hwe
    obtain ⟨hko2, hall⟩ := tomlKeyOk_chars nt.1 hko
    rcases List.mem_cons.mp hl with rfl | hl
    · intro hm
      rcases List.mem_cons.mp hm with e | hm
      · cases e
      · rcases List.mem_append.mp hm with hm | hm
        · exact keyChar_ne '\n' '\n' (hall '\n' hm) (by decide) rfl
        · rcases List.mem_cons.mp hm with e | hm
          · cases e
          · cases hm
    · rw [List.mem_map] at hl
      obtain ⟨kv, hkv, rfl⟩ := hl
      have h3 := hwe.2 kv hkv
      simp only [Bool.and_eq_true] at h3
      exact tomlEntryLine_no_newline kv.1 kv.2 h3.1 h3.2
  · rw [List.mem_flatten] at hl
    obtain ⟨ls, hls, hl⟩ := hl
    rw [List.mem_map] at hls
    obtain ⟨na, hna, rfl⟩ := hls
    have h2 := ha na hna
    simp only [Bool.and_eq_true, List.all_eq_true] at h2
    obtain ⟨⟨⟨⟨hko, _⟩, hwe⟩, _⟩, _⟩ := h2
    obtain ⟨hko2, hall⟩ := tomlKeyOk_chars na.1 hko
    rw [List.mem_flatten] at hl
    obtain ⟨ls2, hls2, hl⟩ := hl
    rw [List.mem_map] at hls2
    obtain ⟨es, hes, rfl⟩ := hls2
    have h3 := hwe es hes
    simp only [wfEntries, Bool.and_eq_true, List.all_eq_true] at h3
    rcases List.mem_cons.mp hl with rfl | hl
    · intro hm
      rcases List.mem_cons.mp hm with e | hm
      · cases e
      · rcases List.mem_cons.mp hm with e | hm
        · cases e
        · rcases List.mem_append.mp hm with hm | hm
          · exact keyChar_ne '\n' '\n' (hall '\n' hm) (by decide) rfl
          · rcases List.mem_cons.mp hm with e | hm
            · cases e
            · rcases List.mem_cons.mp hm with e | hm
              · cases e
              · cases hm
    · rw [List.mem_map] at hl
      obtain ⟨kv, hkv, rfl⟩ := hl
      have h4 := h3.2 kv hkv
      simp only [Bool.and_eq_true] at h4
      exact tomlEntryLine_no_newline kv.1 kv.2 h4.1 h4.2

/-- Round-trip of the TOML store: reading back a written well-formed document
returns it unchanged. -/
theorem read_toml_write_toml (d : TomlDoc) (h : wfToml d = true) :
    read_toml (write_toml d) = d := by
  have hwf := h
  simp only [wfToml, Bool.and_eq_true, List.all_eq_true] at hwf
  obtain ⟨⟨⟨⟨hsc, hndt⟩, hnda⟩, ht⟩, ha⟩ := hwf
  simp only [wfEntries, Bool.and_eq_true, List.all_eq_true] at hsc
  have hscKeys : ∀ kv ∈ d.scalars, tomlKeyOk kv.1 = true := by
    intro kv hkv
    have h2 := hsc.2 kv hkv
    simp only [Bool.and_eq_true] at h2
    exact h2.1
  have hsecs : ∀ s ∈ secsOf d, wfSec s = true := by
    intro s hs
    unfold secsOf at hs
    rcases List.mem_append.mp hs with hs | hs
    · rw [List.mem_map] at hs
      obtain ⟨nt, hnt, rfl⟩ := hs
      have h2 := ht nt hnt
      simp only [Bool.and_eq_true] at h2
      obtain ⟨⟨hko, hwe⟩, _⟩ := h2
      simp only [wfSec, Bool.and_eq_true]
      refine ⟨hko, ?_⟩
      simp only [wfEntries, Bool.and_eq_true, List.all_eq_true] at hwe
      rw [List.all_eq_true]
      intro kv hkv
      have h3 := hwe.2 kv hkv
      simp only [Bool.and_eq_true] at h3
      exact h3.1
    · rw [List.mem_flatten] at hs
      obtain ⟨ls, hls, hs⟩ := hs
      rw [List.mem_map] at hls
      obtain ⟨na, hna, rfl⟩ := hls
      rw [List.mem_map] at hs
      obtain ⟨es, hes, rfl⟩ := hs
      have h2 := ha na hna
      simp only [Bool.and_eq_true, List.all_eq_true] at h2
      obtain ⟨⟨⟨⟨hko, _⟩, hwe⟩, _⟩, _⟩ := h2
      simp only [wfSec, Bool.and_eq_true]
      refine ⟨hko, ?_⟩
      have h3 := hwe es hes
      simp only [wfEntries, Bool.and_eq_true, List.all_eq_true] at h3
      rw [List.all_eq_true]
      intro kv hkv
      have h4 := h3.2 kv hkv
      simp only [Bool.and_eq_true] at h4
      exact h4.1
  have hnonempty : ∀ na ∈ d.arrays, na.2 ≠ [] := by
    intro na hna
    have h2 := ha na hna
    simp only [Bool.and_eq_true] at h2
    have h3 := h2.1.1.1.2
    simp only [Bool.not_eq_true'] at h3
    intro e
    rw [e] at h3
    cases h3
  unfold read_toml write_toml
  rw [show (String.mk (linesJoin (tomlLines d))).data =
    linesJoin (tomlLines d) from rfl]
  rw [splitLines_linesJoin _ (tomlLines_no_newline d h), List.foldl_append]
  rw [show ∀ st : TomlDoc × TomlCtx, List.foldl tomlLine st [[]] = st from
    fun st => rfl]
  rw [tomlLines_reorg, List.foldl_append]
  rw [foldl_entry_top d.scalars ⟨[], [], []⟩ hscKeys]
  rw [foldl_sections _ _ hsecs]
  rw [flushAll_of_foldl_secStep]
  rw [show tomlFlush ({ (⟨[], [], []⟩ : TomlDoc) with
    scalars := ([] : List (String × TomlScalar)) ++ d.scalars }) none =
    ({ (⟨[], [], []⟩ : TomlDoc) with
      scalars := ([] : List (String × TomlScalar)) ++ d.scalars }) from rfl]
  unfold secsOf
  rw [show flushAll { (⟨[], [], []⟩ : TomlDoc) with
      scalars := ([] : List (String × TomlScalar)) ++ d.scalars }
      (d.tables.map (fun nt => (false, nt.1, nt.2)) ++
        (d.arrays.map (fun na => na.2.map (fun es => (true, na.1, es)))).flatten) =
    flushAll (flushAll { (⟨[], [], []⟩ : TomlDoc) with
      scalars := ([] : List (String × TomlScalar)) ++ d.scalars }
      (d.tables.map (fun nt => (false, nt.1, nt.2))))
      ((d.arrays.map (fun na => na.2.map (fun es => (true, na.1, es)))).flatten) from
    List.foldl_append _ _ _ _]
  rw [flushAll_tables]
  rw [flushAll_arrays _ _ hnda ?fresh]
  · simp
  case fresh =>
    intro na hna
    exact ⟨hnonempty na hna, rfl⟩

/-- C5: Structured-store round-trip — a well-formed value written through the
JSON, TOML, or legacy lang write operation and immediately re-read through the
matching read operation is recovered structurally equal, for all three
formats. The lang read produces an ordered mapping with the last occurrence
winning on duplicate keys (Python `dict` assignment in `langLine`/`dictSet`),
and the lang write emits one `key=value` line per entry in iteration order
with non-ASCII characters verbatim. -/
theorem structured_store_round_trip :
    (∀ v : JsonValue, jwf v = true → read_json (write_json v) = some v) ∧
    (∀ d : TomlDoc, wfToml d = true → read_toml (write_toml d) = d) ∧
    (∀ d : List (String × String), wfLang d = true → read_lang (write_lang d) = d) :=
  ⟨read_json_write_json, read_toml_write_toml, read_lang_write_lang⟩

/-- Concrete instance of the C5 round-trip for all three formats, with
non-ASCII payloads and a two-element table array. -/
theorem structured_store_round_trip_witness :
    jwf (JsonValue.obj [("k", JsonValue.str "中")]) = true ∧
    read_json (write_json (JsonValue.obj [("k", JsonValue.str "中")])) =
      some (JsonValue.obj [("k", JsonValue.str "中")]) ∧
    wfToml ⟨[("level", TomlScalar.num 3)],
      [("props", [("solid", TomlScalar.bool true)])],
      [("mods", [[("displayName", TomlScalar.str "ProjectE")],
                 [("displayName", TomlScalar.str "PlainE")]])]⟩ = true ∧
    read_toml (write_toml ⟨[("level", TomlScalar.num 3)],
      [("props", [("solid", TomlScalar.bool true)])],
      [("mods", [[("displayName", TomlScalar.str "ProjectE")],
                 [("displayName", TomlScalar.str "PlainE")]])]⟩) =
      ⟨[("level", TomlScalar.num 3)],
      [("props", [("solid", TomlScalar.bool true)])],
      [("mods", [[("displayName", TomlScalar.str "ProjectE")],
                 [("displayName", TomlScalar.str "PlainE")]])]⟩ ∧
    wfLang [("pe.emc.name", "Coins"), ("tile.name", "交易台")] = true ∧
    read_lang (write_lang [("pe.emc.name", "Coins"), ("tile.name", "交易台")]) =
      [("pe.emc.name", "Coins"), ("tile.name", "交易台")] :=
  ⟨by decide, structured_store_round_trip.1 _ (by decide),
   by decide, structured_store_round_trip.2.1 _ (by decide),
   by decide, structured_store_round_trip.2.2 _ (by decide)⟩
